import Mathlib

/-!
Verification of the LibrePCB air-wire (ratsnest) builder
(`src/libs/librepcb/common/algorithm/airwiresbuilder.cpp`) against its
natural-language specification.

The development shallowly embeds the builder:

* `V2` / `Edge` mirror `delaunay::Vector2<qreal>` and `delaunay::Edge<qreal>`
  (coordinates come from `Point::getX().toNm()`, i.e. signed 64-bit nanometre
  integers, stored into `qreal` = IEEE-754 binary64 fields; we model the
  binary64 contents of an integer-valued double by the integer it holds, and
  every arithmetic operation by exact integer arithmetic followed by
  `fround`, rounding to 53 significant bits, round-to-nearest, ties-to-even).
* `arePointsColinearR` embeds `AirWiresBuilder::arePointsColinear`; its angle
  computations (`std::atan2`, `M_PI`, the `1e-6` tolerance) are idealized over
  the reals, so it is a `Prop`.  Because of that, `buildAirWires` takes the
  branch decision (`colinear : Bool`) as an argument; theorems either hold for
  every branch decision or take `arePointsColinearR` as a hypothesis.
* The Delaunay triangulation (`delaunay::Delaunay<qreal>::triangulate`) is a
  vendored library that is not part of the analyzed sources; following the
  specification it is treated as a replaceable collaborator
  `tri : List V2 → List Edge`, assumed where needed to return edges between
  the given points that connect them.
* `kruskalMst` is embedded literally: tags, the per-tag `cycles` membership
  lists, the unsigned `mstExpectedSize = nodeNumber - 1` (wrapping at 2^32
  for zero points), the `std::sort` by descending weight (modelled as a
  stable sort; `std::sort` itself guarantees only the ordering), and the
  loop that pops edges from the back until `mstSize` reaches
  `mstExpectedSize` or the edge list is exhausted.
-/

namespace AirWires

/-- Mirror of `delaunay::Vector2<qreal>` as stored by `AirWiresBuilder`:
integer-valued double coordinates (nanometres), the point id assigned by
`addPoint`, and the mutable component tag used by `kruskalMst`. -/
structure V2 where
  x : Int
  y : Int
  id : Nat
  tag : Nat
deriving DecidableEq, Repr

instance : Inhabited V2 := ⟨⟨0, 0, 0, 0⟩⟩

/-- Mirror of `delaunay::Edge<qreal>`: two point copies and a weight.
Known edges carry the sentinel weight `-1`; candidate edges get the
(double-rounded) squared distance of their endpoints. -/
structure Edge where
  p1 : V2
  p2 : V2
  weight : Int
deriving DecidableEq, Repr

/-! ### Binary64 rounding of integers

`qreal` is IEEE-754 binary64.  An integer with absolute value below `2^53` is
represented exactly; a larger integer is rounded to the nearest multiple of
the unit in the last place (`2^(e-52)` where `2^e ≤ |n| < 2^(e+1)`),
ties going to the even multiple.  This models every double operation the
builder performs on its integer-valued data. -/

/-- Fuelled binary logarithm (smallest `e ≥ e₀` with `n < 2^(e+1)`); the fuel
only has to cover the magnitudes a `qreal` in the builder can hold (sums of
squares of 64-bit nanometre values, far below `2^300`), and a structural
definition lets the kernel evaluate it. -/
def log2From (e₀ fuel n : Nat) : Nat :=
  match fuel with
  | 0 => e₀
  | fuel + 1 => if n < 2 ^ (e₀ + 1) then e₀ else log2From (e₀ + 1) fuel n

/-- Round a natural number to 53 significant bits (round-to-nearest,
ties-to-even), as storing it in a binary64 would. -/
def froundNat (n : Nat) : Nat :=
  if n < 2 ^ 53 then n
  else
    let u := 2 ^ (log2From 53 300 n - 52)
    let q := n / u
    let r := n % u
    if 2 * r < u then q * u
    else if u < 2 * r then (q + 1) * u
    else if q % 2 = 0 then q * u else (q + 1) * u

/-- Round an integer to binary64 precision (sign-symmetric, as IEEE-754
round-to-nearest is). -/
def fround (z : Int) : Int :=
  if 0 ≤ z then (froundNat z.toNat : Int) else -(froundNat (-z).toNat : Int)

/-- Double subtraction of integer-valued doubles. -/
def fsub (a b : Int) : Int := fround (a - b)

/-- Double multiplication of integer-valued doubles. -/
def fmul (a b : Int) : Int := fround (a * b)

/-- Double addition of integer-valued doubles. -/
def fadd (a b : Int) : Int := fround (a + b)

/-- Embedding of `delaunay::Vector2<qreal>::dist2` at the builder's points:
the squared Euclidean distance formula (per the specification of the vendored
triangulation library), computed in `qreal` double arithmetic as the
`<qreal>` instantiation in `airwiresbuilder.cpp` forces. -/
def fdist2 (p q : V2) : Int :=
  fadd (fmul (fsub p.x q.x) (fsub p.x q.x)) (fmul (fsub p.y q.y) (fsub p.y q.y))

/-! ### The builder registry: `addPoint` / `addEdge` -/

/-- Builder state: the registered points and the edge list. -/
structure Builder where
  mPoints : List V2
  mEdges : List Edge
deriving Repr

/-- Effect of `addPoint` for a whole coordinate list: ids are assigned
sequentially from 0 and the nanometre coordinates are stored into `qreal`
fields (hence `fround`). -/
def storedPoints (coords : List (Int × Int)) : List V2 :=
  coords.mapIdx fun i c => ⟨fround c.1, fround c.2, i, 0⟩

/-- Effect of `addEdge p1 p2`: copy the two registered points into an edge of
sentinel weight `-1`. -/
def knownEdgeOf (ps : List V2) (ij : Nat × Nat) : Edge :=
  ⟨ps.getD ij.1 default, ps.getD ij.2 default, -1⟩

/-- A builder freshly populated by `addPoint` / `addEdge` calls. -/
def builderOf (coords : List (Int × Int)) (knowns : List (Nat × Nat)) : Builder :=
  ⟨storedPoints coords, knowns.map (knownEdgeOf (storedPoints coords))⟩

/-! ### Candidate generation (`buildAirWires`, lines 62–87) -/

/-- Consecutive pairs of a point list, as the collinear fallback emits them
(`mEdges.emplace_back(sortedPoints[i-1], sortedPoints[i], -1)`). -/
def pathEdges : List V2 → List Edge
  | a :: b :: rest => ⟨a, b, -1⟩ :: pathEdges (b :: rest)
  | _ => []

/-- The collinear branch's `std::sort` by `a.x < b.x`, modelled as a stable
sort (`std::sort` fixes only the ordering; equal keys are in unspecified
order and the model picks the stable permutation). -/
def sortByX (ps : List V2) : List V2 :=
  List.insertionSort (fun a b => a.x ≤ b.x) ps

/-- Candidate edges appended by `buildAirWires` before the Kruskal pass,
by point count: none for `≤ 1`, the direct edge for `2`, the x-sorted path
when the collinearity test accepted, otherwise the Delaunay collaborator's
edges. -/
def candidateEdges (colinear : Bool) (tri : List V2 → List Edge)
    (ps : List V2) : List Edge :=
  if ps.length ≤ 1 then []
  else if ps.length = 2 then [⟨ps.getD 0 default, ps.getD 1 default, -1⟩]
  else if colinear then pathEdges (sortByX ps)
  else tri ps

/-- Weight assignment for the freshly appended candidate edges
(`mEdges[i].weight = mEdges[i].p1.dist2(mEdges[i].p2)`). -/
def withWeights (es : List Edge) : List Edge :=
  es.map fun e => ⟨e.p1, e.p2, fdist2 e.p1 e.p2⟩

/-! ### The Kruskal reduction (`kruskalMst`, lines 123–217) -/

/-- Mutable state of `kruskalMst`: the (tag-carrying) point vector, the
`tags` map (point id to tag), the per-tag membership lists `cycles`, the
unsigned counters and the latch `ratsnestLines`, plus the output `mst`. -/
structure KS where
  points : List V2
  tags : List Nat
  cycles : List (List Nat)
  expectedSize : Nat
  mstSize : Nat
  ratsnest : Bool
  mst : List (V2 × V2)
deriving Repr

/-- Initial Kruskal state: every point tagged with its own index
(`node.tag = tag; tags[node.id] = tag++`), singleton cycles, and the
unsigned `mstExpectedSize = nodeNumber - 1` (wrapping for 0 points). -/
def initKS (ps : List V2) : KS :=
  { points := ps.mapIdx fun i p => ⟨p.x, p.y, p.id, i⟩
    tags := List.range ps.length
    cycles := (List.range ps.length).map fun i => [i]
    expectedSize := (ps.length + 4294967295) % 4294967296
    mstSize := 0
    ratsnest := false
    mst := [] }

/-- Retag: `for (it : cycles[trgTag]) tags[mPoints[*it].id] = srcTag`
(point ids are their indices, so the `tags` map is an array). -/
def retag (tags : List Nat) (members : List Nat) (t : Nat) : List Nat :=
  members.foldl (fun acc i => acc.set i t) tags

/-- Positional tag update of the point vector (`mPoints[*it].tag = srcTag`). -/
def setTagAt : List V2 → Nat → Nat → List V2
  | [], _, _ => []
  | p :: ps, 0, t => ⟨p.x, p.y, p.id, t⟩ :: ps
  | p :: ps, i + 1, t => p :: setTagAt ps i t

/-- Tag update of the point vector for all members of the merged group. -/
def retagPoints (ps : List V2) (members : List Nat) (t : Nat) : List V2 :=
  members.foldl (fun acc i => setTagAt acc i t) ps

/-- The `cycles[srcTag].splice(cycles[srcTag].end(), cycles[trgTag])` move:
append the target list to the source list and empty the target. -/
def splice (cycles : List (List Nat)) (src trg : Nat) : List (List Nat) :=
  let merged := cycles.getD src [] ++ cycles.getD trg []
  (cycles.set src merged).set trg []

/-- One iteration of the Kruskal loop body on edge `e` (the edge popped from
the back of the sorted vector).  If the endpoint tags differ the groups are
merged; with the `ratsnestLines` latch set (or a non-negative weight setting
it) the edge is emitted as an air wire, otherwise (a known connection) the
expected MST size is decremented and the point vector is also retagged. -/
def kstep (s : KS) (e : Edge) : KS :=
  if s.tags.getD e.p1.id 0 ≠ s.tags.getD e.p2.id 0 then
    if s.ratsnest || decide (0 ≤ e.weight) then
      { s with
        tags := retag s.tags (s.cycles.getD (s.tags.getD e.p2.id 0) [])
          (s.tags.getD e.p1.id 0)
        cycles := splice s.cycles (s.tags.getD e.p1.id 0)
          (s.tags.getD e.p2.id 0)
        ratsnest := s.ratsnest || decide (0 ≤ e.weight)
        mst := s.mst ++ [(e.p1, e.p2)]
        mstSize := s.mstSize + 1 }
    else
      { s with
        tags := retag s.tags (s.cycles.getD (s.tags.getD e.p2.id 0) [])
          (s.tags.getD e.p1.id 0)
        points := retagPoints s.points (s.cycles.getD (s.tags.getD e.p2.id 0) [])
          (s.tags.getD e.p1.id 0)
        cycles := splice s.cycles (s.tags.getD e.p1.id 0)
          (s.tags.getD e.p2.id 0)
        ratsnest := s.ratsnest || decide (0 ≤ e.weight)
        expectedSize := s.expectedSize - 1 }
  else s

/-- The Kruskal loop: stop when `mstSize` reaches `mstExpectedSize` or the
edges run out; returns the final state and the unprocessed edges (which the
C++ loop leaves in `mEdges`, in processing order here). -/
def kloop : KS → List Edge → KS × List Edge
  | s, [] => (s, [])
  | s, e :: rest =>
    if s.mstSize < s.expectedSize then kloop (kstep s e) rest else (s, e :: rest)

/-- The loop body gated by the loop condition; because `mstSize` never
decreases and `expectedSize` never increases, folding `gstep` over the whole
list yields the same state as the early-exiting loop. -/
def gstep (s : KS) (e : Edge) : KS :=
  if s.mstSize < s.expectedSize then kstep s e else s

/-- The `std::sort` by the comparator `a.weight > b.weight` (descending),
modelled as a stable sort for the total preorder `b.weight ≤ a.weight`. -/
def sortEdgesDesc (es : List Edge) : List Edge :=
  List.insertionSort (fun a b => b.weight ≤ a.weight) es

/-- Edges in the order the loop processes them: popped from the back of the
descending-sorted vector, i.e. ascending weight. -/
def procListOf (es : List Edge) : List Edge := (sortEdgesDesc es).reverse

/-- The whole edge list `buildAirWires` hands to `kruskalMst`: the known
edges already in `mEdges` followed by the weighted candidates. -/
def allEdges (colinear : Bool) (tri : List V2 → List Edge) (b : Builder) :
    List Edge :=
  b.mEdges ++ withWeights (candidateEdges colinear tri b.mPoints)

/-- Full run of `buildAirWires`: candidate generation, weighting, and the
Kruskal reduction; returns the final Kruskal state and the leftover edges. -/
def buildRun (colinear : Bool) (tri : List V2 → List Edge) (b : Builder) :
    KS × List Edge :=
  kloop (initKS b.mPoints) (procListOf (allEdges colinear tri b))

/-- The returned air wires: the emitted pairs, coordinates only
(`mst.append(qMakePair(Point(dt.p1.x, dt.p1.y), Point(dt.p2.x, dt.p2.y)))`). -/
def buildAirWires (colinear : Bool) (tri : List V2 → List Edge) (b : Builder) :
    List ((Int × Int) × (Int × Int)) :=
  (buildRun colinear tri b).1.mst.map fun pq =>
    ((pq.1.x, pq.1.y), (pq.2.x, pq.2.y))

/-- The builder as `buildAirWires` leaves it: the point vector with the tags
the run wrote, and `mEdges` holding exactly the unprocessed edges (the loop
pops processed ones; unprocessed ones stay, still sorted descending). -/
def buildRest (colinear : Bool) (tri : List V2 → List Edge) (b : Builder) :
    Builder :=
  ⟨(buildRun colinear tri b).1.points, (buildRun colinear tri b).2.reverse⟩

/-- The emitted air wires at the id level (each emitted pair is an edge of
the input whose endpoints carry their `addPoint` ids). -/
def airWireIds (colinear : Bool) (tri : List V2 → List Edge) (b : Builder) :
    List (Nat × Nat) :=
  (buildRun colinear tri b).1.mst.map fun pq => (pq.1.id, pq.2.id)

/-- State of the Kruskal loop after `k` iterations (the gated fold makes the
state after the early exit simply persist). -/
def stateAt (colinear : Bool) (tri : List V2 → List Edge) (b : Builder)
    (k : Nat) : KS :=
  ((procListOf (allEdges colinear tri b)).take k).foldl gstep
    (initKS b.mPoints)

/-! ### The collinearity test (`arePointsColinear`, lines 98–120)

The test computes direction angles with `std::atan2` on doubles and compares
them with an absolute tolerance of `1e-6` radians after normalizing into a
half-turn range.  The transcendental arithmetic is idealized over `ℝ`
(`M_PI` becomes `π`, the literals become the exact rationals); the squared
distance guard is integer-exact at the magnitudes involved. -/

/-- Mathematical `atan2` with the C convention: range `(-π, π]`,
`atan2 0 0 = 0`. -/
noncomputable def atan2R (y x : ℝ) : ℝ :=
  if 0 < x then Real.arctan (y / x)
  else if x < 0 then
    if 0 ≤ y then Real.arctan (y / x) + Real.pi else Real.arctan (y / x) - Real.pi
  else if 0 < y then Real.pi / 2
  else if y < 0 then -(Real.pi / 2)
  else 0

/-- The source's half-turn normalization: `if (a < 0) a += M_PI`. -/
noncomputable def normHalf (a : ℝ) : ℝ := if a < 0 then a + Real.pi else a

/-- Direction angle of `p` as seen from `p0`, normalized as in the source. -/
noncomputable def dirAngle (p0 p : V2) : ℝ :=
  normHalf (atan2R ((p.y - p0.y : Int) : ℝ) ((p.x - p0.x : Int) : ℝ))

/-- The guard `(vp.x*vp.x + vp.y*vp.y) > 1e6` deciding whether a point takes
part in the angle comparison (the source comment reads `> 1µm`; coordinates
are nanometres, so the threshold is `10^6 nm² = (1 µm)²`). -/
def colinearTakesPart (p0 p : V2) : Prop :=
  1000000 < (p.x - p0.x) ^ 2 + (p.y - p0.y) ^ 2

instance (p0 p : V2) : Decidable (colinearTakesPart p0 p) := by
  unfold colinearTakesPart; infer_instance

/-- Embedding of `AirWiresBuilder::arePointsColinear`: fewer than three
points are collinear; otherwise every point beyond the first whose squared
distance from the first point exceeds the guard must have a direction angle
within `1e-6` radians of the reference angle of the second point. -/
def arePointsColinearR : List V2 → Prop
  | p0 :: p1 :: rest =>
      ∀ p ∈ rest, colinearTakesPart p0 p →
        |dirAngle p0 p - dirAngle p0 p1| ≤ 1 / 1000000
  | _ => True

/-! ### Basic facts about the binary64 rounding model -/

theorem froundNat_eq_self {n : Nat} (h : n < 2 ^ 53) : froundNat n = n := by
  unfold froundNat; rw [if_pos h]

theorem fround_eq_self {z : Int} (h : z.natAbs < 2 ^ 53) : fround z = z := by
  unfold fround
  rcases le_or_lt 0 z with hz | hz
  · rw [if_pos hz, froundNat_eq_self (by omega), Int.toNat_of_nonneg hz]
  · rw [if_neg (by omega), froundNat_eq_self (by omega)]
    omega

theorem fround_nonneg {z : Int} (h : 0 ≤ z) : 0 ≤ fround z := by
  unfold fround
  rw [if_pos h]
  exact Int.natCast_nonneg _

theorem fdist2_nonneg (p q : V2) : 0 ≤ fdist2 p q := by
  unfold fdist2 fadd
  apply fround_nonneg
  have h1 : 0 ≤ fmul (fsub p.x q.x) (fsub p.x q.x) :=
    fround_nonneg (mul_self_nonneg _)
  have h2 : 0 ≤ fmul (fsub p.y q.y) (fsub p.y q.y) :=
    fround_nonneg (mul_self_nonneg _)
  omega

theorem natAbs_lt_of_sq_lt {a : Int} (h : a ^ 2 < 2 ^ 53) :
    a.natAbs < 2 ^ 53 := by
  by_contra hc
  push_neg at hc
  have habs : (2 : Int) ^ 53 ≤ |a| := by
    rw [Int.abs_eq_natAbs]; exact_mod_cast hc
  nlinarith [sq_abs a, abs_nonneg a]

/-- Exactness of the double squared distance whenever the true squared
distance fits in the 53-bit significand. -/
theorem fdist2_exact (p q : V2)
    (h : (p.x - q.x) ^ 2 + (p.y - q.y) ^ 2 < 2 ^ 53) :
    fdist2 p q = (p.x - q.x) ^ 2 + (p.y - q.y) ^ 2 := by
  have hx2 : (p.x - q.x) ^ 2 < 2 ^ 53 := by nlinarith [sq_nonneg (p.y - q.y)]
  have hy2 : (p.y - q.y) ^ 2 < 2 ^ 53 := by nlinarith [sq_nonneg (p.x - q.x)]
  have hxa : (p.x - q.x).natAbs < 2 ^ 53 := natAbs_lt_of_sq_lt hx2
  have hya : (p.y - q.y).natAbs < 2 ^ 53 := natAbs_lt_of_sq_lt hy2
  unfold fdist2 fsub
  rw [fround_eq_self hxa, fround_eq_self hya]
  unfold fmul
  rw [← pow_two, ← pow_two,
    fround_eq_self (z := (p.x - q.x) ^ 2) (by
      have := sq_nonneg (p.x - q.x); omega),
    fround_eq_self (z := (p.y - q.y) ^ 2) (by
      have := sq_nonneg (p.y - q.y); omega)]
  unfold fadd
  exact fround_eq_self (by
    have := sq_nonneg (p.x - q.x); have := sq_nonneg (p.y - q.y); omega)

/-! ### Graph connectivity over id pairs

The specification speaks about connected components of the point set under a
set of edges.  Edges are recorded as id pairs; connectivity is the
equivalence closure of the adjacency relation. -/

/-- Adjacency of the undirected graph given by a list of id pairs. -/
def adjOf (l : List (Nat × Nat)) (i j : Nat) : Prop :=
  (i, j) ∈ l ∨ (j, i) ∈ l

/-- Connectivity: the equivalence closure of adjacency. -/
def connOf (l : List (Nat × Nat)) (i j : Nat) : Prop :=
  Relation.EqvGen (adjOf l) i j

/-- The id pairs of an edge list. -/
def idPairs (es : List Edge) : List (Nat × Nat) :=
  es.map fun e => (e.p1.id, e.p2.id)

/-- The component tag of point id `i` in Kruskal state `s`. -/
def tagAt (s : KS) (i : Nat) : Nat := s.tags.getD i 0

/-- The partition induced by the tags: two ids are related when they carry
the same tag. -/
def tagRel (s : KS) (i j : Nat) : Prop := tagAt s i = tagAt s j

/-! ### The early-exiting loop as a gated fold -/

theorem kstep_mstSize_le (s : KS) (e : Edge) : s.mstSize ≤ (kstep s e).mstSize := by
  unfold kstep
  split
  · split <;> simp
  · exact le_refl _

theorem kstep_expectedSize_le (s : KS) (e : Edge) :
    (kstep s e).expectedSize ≤ s.expectedSize := by
  unfold kstep
  split
  · split
    · simp
    · simp
  · exact le_refl _

theorem gstep_stopped {s : KS} (h : ¬ s.mstSize < s.expectedSize) (e : Edge) :
    gstep s e = s := by
  unfold gstep; rw [if_neg h]

theorem foldl_gstep_stopped {s : KS} (h : ¬ s.mstSize < s.expectedSize) :
    ∀ L : List Edge, L.foldl gstep s = s := by
  intro L
  induction L with
  | nil => rfl
  | cons e rest ih => rw [List.foldl_cons, gstep_stopped h]; exact ih

theorem kloop_fst_eq_foldl (L : List Edge) (s : KS) :
    (kloop s L).1 = L.foldl gstep s := by
  induction L generalizing s with
  | nil => rfl
  | cons e rest ih =>
    by_cases h : s.mstSize < s.expectedSize
    · rw [kloop, if_pos h, List.foldl_cons, ih]
      unfold gstep; rw [if_pos h]
    · rw [kloop, if_neg h, foldl_gstep_stopped h]

/-! ### Pointwise description of `retag` and `splice` -/

theorem getD_set {α : Type} (l : List α) (i j : Nat) (v d : α) :
    (l.set i v).getD j d = if i = j ∧ j < l.length then v else l.getD j d := by
  by_cases hj : j < l.length
  · by_cases hij : i = j
    · subst hij
      rw [if_pos ⟨rfl, hj⟩, List.getD_eq_getElem _ _ (by simpa using hj)]
      simp [List.getElem_set, hj]
    · rw [if_neg (by tauto), List.getD_eq_getElem _ _ (by simpa using hj),
        List.getD_eq_getElem _ _ hj]
      simp [List.getElem_set, hij]
  · rw [if_neg (by tauto), List.getD_eq_default _ _ (by simpa using Nat.le_of_not_lt hj),
      List.getD_eq_default _ _ (Nat.le_of_not_lt hj)]

theorem retag_length (members tags : List Nat) (t : Nat) :
    (retag tags members t).length = tags.length := by
  induction members generalizing tags with
  | nil => rfl
  | cons m ms ih =>
    show (retag (tags.set m t) ms t).length = _
    rw [ih, List.length_set]

theorem retag_getD (members tags : List Nat) (t j : Nat) :
    (retag tags members t).getD j 0 =
      if j ∈ members ∧ j < tags.length then t else tags.getD j 0 := by
  induction members generalizing tags with
  | nil => simp [retag]
  | cons m ms ih =>
    show (retag (tags.set m t) ms t).getD j 0 = _
    rw [ih, List.length_set, getD_set]
    by_cases hms : j ∈ ms
    · by_cases hj : j < tags.length
      · rw [if_pos ⟨hms, hj⟩, if_pos ⟨List.mem_cons_of_mem _ hms, hj⟩]
      · rw [if_neg (by tauto), if_neg (by tauto), if_neg (by tauto)]
    · by_cases hm : m = j
      · subst hm
        by_cases hj : m < tags.length
        · rw [if_neg (by tauto), if_pos ⟨rfl, hj⟩, if_pos ⟨List.mem_cons_self _ _, hj⟩]
        · rw [if_neg (by tauto), if_neg (by tauto), if_neg (by tauto)]
      · have h1 : ¬ (m = j ∧ j < tags.length) := fun h => hm h.1
        have h2 : ¬ (j ∈ m :: ms ∧ j < tags.length) := by
          rintro ⟨hmem, _⟩
          rcases List.mem_cons.mp hmem with h | h
          · exact hm h.symm
          · exact hms h
        rw [if_neg (by tauto), if_neg h1, if_neg h2]

/-! ### Well-formedness of the Kruskal state -/

/-- Well-formedness of a Kruskal state over `n` points: the `tags` array has
an in-range tag per id, and `cycles t` lists exactly the ids currently
tagged `t`. -/
structure WF (n : Nat) (s : KS) : Prop where
  tags_len : s.tags.length = n
  tags_lt : ∀ i, i < n → s.tags.getD i 0 < n
  cyc_len : s.cycles.length = n
  cyc_mem : ∀ t, t < n → ∀ i, i ∈ s.cycles.getD t [] ↔ i < n ∧ s.tags.getD i 0 = t

theorem WF_initKS (ps : List V2) : WF ps.length (initKS ps) := by
  constructor
  · simp [initKS]
  · intro i hi
    rw [initKS, List.getD_eq_getElem _ _ (by simpa using hi)]
    simpa using hi
  · simp [initKS]
  · intro t ht i
    rw [initKS]
    show i ∈ ((List.range ps.length).map fun i => [i]).getD t [] ↔ _
    rw [List.getD_eq_getElem _ _ (by simpa using ht)]
    simp only [List.getElem_map, List.getElem_range, List.mem_singleton]
    constructor
    · rintro rfl
      exact ⟨ht, by rw [List.getD_eq_getElem _ _ (by simpa using ht)]; simp⟩
    · rintro ⟨hi, hEq⟩
      rw [List.getD_eq_getElem _ _ (by simpa using hi)] at hEq
      simpa using hEq

/-- Under well-formedness, retagging the members of the target group is the
same as substituting the target tag by the source tag everywhere. -/
theorem retag_members_getD {n : Nat} {s : KS} (hWF : WF n s) {trg : Nat}
    (htrg : trg < n) (src j : Nat) (hj : j < n) :
    (retag s.tags (s.cycles.getD trg []) src).getD j 0 =
      if s.tags.getD j 0 = trg then src else s.tags.getD j 0 := by
  rw [retag_getD]
  by_cases hmem : j ∈ s.cycles.getD trg []
  · have := (hWF.cyc_mem trg htrg j).1 hmem
    rw [if_pos ⟨hmem, by rw [hWF.tags_len]; exact hj⟩, if_pos this.2]
  · rw [if_neg (by tauto), if_neg]
    intro hEq
    exact hmem ((hWF.cyc_mem trg htrg j).2 ⟨hj, hEq⟩)

theorem splice_getD {n : Nat} {s : KS} (hWF : WF n s) {src trg : Nat}
    (hsrc : src < n) (htrg : trg < n) (hne : src ≠ trg) (t : Nat) (ht : t < n) :
    (splice s.cycles src trg).getD t [] =
      if t = trg then []
      else if t = src then s.cycles.getD src [] ++ s.cycles.getD trg []
      else s.cycles.getD t [] := by
  unfold splice
  rw [getD_set, getD_set, List.length_set, hWF.cyc_len]
  by_cases h1 : t = trg
  · subst h1; rw [if_pos ⟨rfl, ht⟩, if_pos rfl]
  · rw [if_neg (fun h => h1 h.1.symm), if_neg h1]
    by_cases h2 : t = src
    · subst h2; rw [if_pos ⟨rfl, ht⟩, if_pos rfl]
    · rw [if_neg (fun h => h2 h.1.symm), if_neg h2]

/-- Well-formedness survives a merge of two distinct tag groups. -/
theorem WF_merge {n : Nat} {s : KS} (hWF : WF n s) {src trg : Nat}
    (hsrc : src < n) (htrg : trg < n) (hne : src ≠ trg) :
    (retag s.tags (s.cycles.getD trg []) src).length = n ∧
    (∀ j, j < n → (retag s.tags (s.cycles.getD trg []) src).getD j 0 < n) ∧
    (splice s.cycles src trg).length = n ∧
    (∀ t, t < n → ∀ i, i ∈ (splice s.cycles src trg).getD t [] ↔
      i < n ∧ (retag s.tags (s.cycles.getD trg []) src).getD i 0 = t) := by
  refine ⟨by rw [retag_length, hWF.tags_len], ?_, by simp [splice, hWF.cyc_len], ?_⟩
  · intro j hj
    rw [retag_members_getD hWF htrg src j hj]
    split
    · exact hsrc
    · exact hWF.tags_lt j hj
  · intro t ht i
    rw [splice_getD hWF hsrc htrg hne t ht]
    constructor
    · intro hi
      by_cases h1 : t = trg
      · subst h1; rw [if_pos rfl] at hi; simp at hi
      · rw [if_neg h1] at hi
        by_cases h2 : t = src
        · subst h2
          rw [if_pos rfl, List.mem_append] at hi
          rcases hi with hi | hi
          · have hm := (hWF.cyc_mem t hsrc i).1 hi
            refine ⟨hm.1, ?_⟩
            rw [retag_members_getD hWF htrg t i hm.1, hm.2, if_neg hne]
          · have hm := (hWF.cyc_mem trg htrg i).1 hi
            exact ⟨hm.1, by rw [retag_members_getD hWF htrg t i hm.1, if_pos hm.2]⟩
        · rw [if_neg h2] at hi
          have hm := (hWF.cyc_mem t ht i).1 hi
          refine ⟨hm.1, ?_⟩
          rw [retag_members_getD hWF htrg src i hm.1, hm.2, if_neg h1]
    · rintro ⟨hi, hEq⟩
      rw [retag_members_getD hWF htrg src i hi] at hEq
      by_cases hcur : s.tags.getD i 0 = trg
      · rw [if_pos hcur] at hEq
        subst hEq
        rw [if_neg hne, if_pos rfl, List.mem_append]
        exact Or.inr ((hWF.cyc_mem trg htrg i).2 ⟨hi, hcur⟩)
      · rw [if_neg hcur] at hEq
        subst hEq
        rw [if_neg hcur]
        by_cases h2 : s.tags.getD i 0 = src
        · rw [if_pos h2, List.mem_append]
          exact Or.inl ((hWF.cyc_mem src hsrc i).2 ⟨hi, h2⟩)
        · rw [if_neg h2]
          exact (hWF.cyc_mem _ (hWF.tags_lt i hi) i).2 ⟨hi, rfl⟩

/-- Case analysis for one Kruskal step: skip, emitting merge, or known
(free) merge, with the successor state spelled out. -/
theorem kstep_cases (s : KS) (e : Edge) :
    (tagAt s e.p1.id = tagAt s e.p2.id ∧ kstep s e = s) ∨
    (tagAt s e.p1.id ≠ tagAt s e.p2.id ∧ (s.ratsnest = true ∨ 0 ≤ e.weight) ∧
      kstep s e =
        { s with
          tags := retag s.tags (s.cycles.getD (tagAt s e.p2.id) []) (tagAt s e.p1.id)
          cycles := splice s.cycles (tagAt s e.p1.id) (tagAt s e.p2.id)
          ratsnest := true
          mst := s.mst ++ [(e.p1, e.p2)]
          mstSize := s.mstSize + 1 }) ∨
    (tagAt s e.p1.id ≠ tagAt s e.p2.id ∧ s.ratsnest = false ∧ e.weight < 0 ∧
      kstep s e =
        { s with
          tags := retag s.tags (s.cycles.getD (tagAt s e.p2.id) []) (tagAt s e.p1.id)
          points := retagPoints s.points (s.cycles.getD (tagAt s e.p2.id) [])
            (tagAt s e.p1.id)
          cycles := splice s.cycles (tagAt s e.p1.id) (tagAt s e.p2.id)
          ratsnest := false
          expectedSize := s.expectedSize - 1 }) := by
  by_cases hne : tagAt s e.p1.id ≠ tagAt s e.p2.id
  · have hne' : s.tags.getD e.p1.id 0 ≠ s.tags.getD e.p2.id 0 := hne
    by_cases hrn : (s.ratsnest || decide (0 ≤ e.weight)) = true
    · refine Or.inr (Or.inl ⟨hne, ?_, ?_⟩)
      · simpa [Bool.or_eq_true, decide_eq_true_iff] using hrn
      · unfold kstep
        rw [if_pos hne', if_pos hrn, hrn]
        rfl
    · have hrn' : (s.ratsnest || decide (0 ≤ e.weight)) = false := by
        simpa using hrn
      obtain ⟨hrat, hw⟩ := Bool.or_eq_false_iff.mp hrn'
      refine Or.inr (Or.inr ⟨hne, hrat, ?_, ?_⟩)
      · simpa [decide_eq_false_iff_not] using hw
      · unfold kstep
        rw [if_pos hne', if_neg hrn, hrn']
        rfl
  · push_neg at hne
    refine Or.inl ⟨hne, ?_⟩
    unfold kstep
    rw [if_neg (not_not_intro (show s.tags.getD e.p1.id 0 = s.tags.getD e.p2.id 0
      from hne))]

theorem WF_kstep {n : Nat} {s : KS} (hWF : WF n s) (e : Edge)
    (h1 : e.p1.id < n) (h2 : e.p2.id < n) : WF n (kstep s e) := by
  rcases kstep_cases s e with ⟨_, hEq⟩ | ⟨hne, _, hEq⟩ | ⟨hne, _, _, hEq⟩
  · rw [hEq]; exact hWF
  · rw [hEq]
    obtain ⟨w1, w2, w3, w4⟩ := WF_merge hWF (hWF.tags_lt _ h1) (hWF.tags_lt _ h2) hne
    exact ⟨w1, w2, w3, w4⟩
  · rw [hEq]
    obtain ⟨w1, w2, w3, w4⟩ := WF_merge hWF (hWF.tags_lt _ h1) (hWF.tags_lt _ h2) hne
    exact ⟨w1, w2, w3, w4⟩

/-! ### Properties of the connectivity closure -/

open Relation

theorem connOf_refl (l : List (Nat × Nat)) (i : Nat) : connOf l i i :=
  EqvGen.refl i

theorem connOf_symm {l : List (Nat × Nat)} {i j : Nat} (h : connOf l i j) :
    connOf l j i :=
  EqvGen.symm i j h

theorem connOf_trans {l : List (Nat × Nat)} {i j k : Nat} (h1 : connOf l i j)
    (h2 : connOf l j k) : connOf l i k :=
  EqvGen.trans i j k h1 h2

theorem connOf_mono {l l' : List (Nat × Nat)} (hsub : ∀ p ∈ l, p ∈ l')
    {i j : Nat} (h : connOf l i j) : connOf l' i j :=
  Relation.EqvGen.mono (fun _ _ hab => hab.imp (hsub _) (hsub _)) h

theorem connOf_perm {l l' : List (Nat × Nat)} (hp : l.Perm l') (i j : Nat) :
    connOf l i j ↔ connOf l' i j :=
  ⟨connOf_mono fun _ hp' => hp.mem_iff.mp hp',
   connOf_mono fun _ hp' => hp.mem_iff.mpr hp'⟩

theorem connOf_nil (i j : Nat) : connOf [] i j ↔ i = j := by
  constructor
  · intro h
    induction h with
    | rel x y hxy => rcases hxy with h | h <;> simp at h
    | refl x => rfl
    | symm x y _ ih => exact ih.symm
    | trans x y z _ _ ih1 ih2 => exact ih1.trans ih2
  · rintro rfl; exact connOf_refl _ _

theorem connOf_of_mem {l : List (Nat × Nat)} {a b : Nat} (h : (a, b) ∈ l) :
    connOf l a b :=
  EqvGen.rel a b (Or.inl h)

/-- Effect of appending a single pair on the connectivity closure. -/
theorem connOf_add_pair (l : List (Nat × Nat)) (a b i j : Nat) :
    connOf (l ++ [(a, b)]) i j ↔
      connOf l i j ∨ (connOf l i a ∧ connOf l b j) ∨
        (connOf l i b ∧ connOf l a j) := by
  constructor
  · intro h
    induction h with
    | rel x y hxy =>
      rcases hxy with hxy | hxy <;> rw [List.mem_append] at hxy
      · rcases hxy with h | h
        · exact Or.inl (EqvGen.rel _ _ (Or.inl h))
        · have : x = a ∧ y = b := by simpa using h
          obtain ⟨rfl, rfl⟩ := this
          exact Or.inr (Or.inl ⟨EqvGen.refl _, EqvGen.refl _⟩)
      · rcases hxy with h | h
        · exact Or.inl (EqvGen.rel _ _ (Or.inr h))
        · have : y = a ∧ x = b := by simpa using h
          obtain ⟨rfl, rfl⟩ := this
          exact Or.inr (Or.inr ⟨EqvGen.refl _, EqvGen.refl _⟩)
    | refl x => exact Or.inl (EqvGen.refl x)
    | symm x y _ ih =>
      rcases ih with h | ⟨h1, h2⟩ | ⟨h1, h2⟩
      · exact Or.inl (connOf_symm h)
      · exact Or.inr (Or.inr ⟨connOf_symm h2, connOf_symm h1⟩)
      · exact Or.inr (Or.inl ⟨connOf_symm h2, connOf_symm h1⟩)
    | trans x y z _ _ ih1 ih2 =>
      rcases ih1 with h | ⟨h1, h2⟩ | ⟨h1, h2⟩ <;>
        rcases ih2 with g | ⟨g1, g2⟩ | ⟨g1, g2⟩
      · exact Or.inl (connOf_trans h g)
      · exact Or.inr (Or.inl ⟨connOf_trans h g1, g2⟩)
      · exact Or.inr (Or.inr ⟨connOf_trans h g1, g2⟩)
      · exact Or.inr (Or.inl ⟨h1, connOf_trans h2 g⟩)
      · exact Or.inr (Or.inl ⟨h1, g2⟩)
      · exact Or.inl (connOf_trans h1 g2)
      · exact Or.inr (Or.inr ⟨h1, connOf_trans h2 g⟩)
      · exact Or.inl (connOf_trans h1 g2)
      · exact Or.inr (Or.inr ⟨h1, g2⟩)
  · intro h
    have base : connOf (l ++ [(a, b)]) a b :=
      connOf_of_mem (by simp)
    have lift : ∀ {u v : Nat}, connOf l u v → connOf (l ++ [(a, b)]) u v :=
      fun h' => connOf_mono (fun p hp => List.mem_append_left _ hp) h'
    rcases h with h | ⟨h1, h2⟩ | ⟨h1, h2⟩
    · exact lift h
    · exact connOf_trans (lift h1) (connOf_trans base (lift h2))
    · exact connOf_trans (lift h1) (connOf_trans (connOf_symm base) (lift h2))

/-- Appending a pair whose endpoints are already connected changes nothing. -/
theorem connOf_add_redundant {l : List (Nat × Nat)} {a b : Nat}
    (h : connOf l a b) (i j : Nat) :
    connOf (l ++ [(a, b)]) i j ↔ connOf l i j := by
  rw [connOf_add_pair]
  constructor
  · rintro (hc | ⟨h1, h2⟩ | ⟨h1, h2⟩)
    · exact hc
    · exact connOf_trans h1 (connOf_trans h h2)
    · exact connOf_trans h1 (connOf_trans (connOf_symm h) h2)
  · exact Or.inl

/-! ### Counting distinct tags -/

/-- Number of distinct tags over the first `n` ids (the number of current
components once the state is well-formed). -/
def dTags (n : Nat) (tags : List Nat) : Nat :=
  ((Finset.range n).image fun i => tags.getD i 0).card

theorem dTags_le (n : Nat) (tags : List Nat) : dTags n tags ≤ n := by
  have := Finset.card_image_le (s := Finset.range n)
    (f := fun i => tags.getD i 0)
  simpa [dTags] using this

theorem dTags_pos {n : Nat} (hn : 1 ≤ n) (tags : List Nat) : 1 ≤ dTags n tags := by
  rw [dTags, Nat.one_le_iff_ne_zero, ← Nat.pos_iff_ne_zero, Finset.card_pos]
  exact (Finset.nonempty_range_iff.mpr (by omega)).image _

/-- A single-tag array relates every pair of ids. -/
theorem tagRel_of_dTags_eq_one {n : Nat} {tags : List Nat} (h : dTags n tags = 1)
    {i j : Nat} (hi : i < n) (hj : j < n) : tags.getD i 0 = tags.getD j 0 := by
  rw [dTags, Finset.card_eq_one] at h
  obtain ⟨a, ha⟩ := h
  have hmi : tags.getD i 0 ∈ (Finset.range n).image fun i => tags.getD i 0 :=
    Finset.mem_image_of_mem _ (Finset.mem_range.mpr hi)
  have hmj : tags.getD j 0 ∈ (Finset.range n).image fun i => tags.getD i 0 :=
    Finset.mem_image_of_mem _ (Finset.mem_range.mpr hj)
  rw [ha, Finset.mem_singleton] at hmi hmj
  rw [hmi, hmj]

/-- Merging replaces the target tag by the source tag in the tag image. -/
theorem image_retag {n : Nat} {s : KS} (hWF : WF n s) {src trg : Nat}
    (htrg : trg < n) (hsrcmem : ∃ i, i < n ∧ s.tags.getD i 0 = src)
    (hne : src ≠ trg) :
    ((Finset.range n).image fun i =>
        (retag s.tags (s.cycles.getD trg []) src).getD i 0) =
      ((Finset.range n).image fun i => s.tags.getD i 0).erase trg := by
  ext u
  simp only [Finset.mem_image, Finset.mem_erase, Finset.mem_range]
  constructor
  · rintro ⟨i, hi, hu⟩
    rw [retag_members_getD hWF htrg src i hi] at hu
    by_cases hcur : s.tags.getD i 0 = trg
    · rw [if_pos hcur] at hu
      subst hu
      exact ⟨hne, hsrcmem.imp fun a ha => ⟨ha.1, ha.2⟩⟩
    · rw [if_neg hcur] at hu
      subst hu
      exact ⟨fun h => hcur h, i, hi, rfl⟩
  · rintro ⟨hu, i, hi, hv⟩
    refine ⟨i, hi, ?_⟩
    rw [retag_members_getD hWF htrg src i hi, if_neg (by rw [hv]; exact fun h => hu h), hv]

/-- Pointwise description of the tag partition after a merge. -/
theorem tagRel_merge_iff {n : Nat} {s : KS} (hWF : WF n s) {src trg : Nat}
    (htrg : trg < n) {i j : Nat} (hi : i < n) (hj : j < n) :
    (retag s.tags (s.cycles.getD trg []) src).getD i 0 =
        (retag s.tags (s.cycles.getD trg []) src).getD j 0 ↔
      s.tags.getD i 0 = s.tags.getD j 0 ∨
        (s.tags.getD i 0 = src ∧ s.tags.getD j 0 = trg) ∨
        (s.tags.getD i 0 = trg ∧ s.tags.getD j 0 = src) := by
  rw [retag_members_getD hWF htrg src i hi, retag_members_getD hWF htrg src j hj]
  by_cases h1 : s.tags.getD i 0 = trg <;> by_cases h2 : s.tags.getD j 0 = trg
  · rw [if_pos h1, if_pos h2]
    constructor
    · intro _; exact Or.inl (h1.trans h2.symm)
    · intro _; rfl
  · rw [if_pos h1, if_neg h2]
    constructor
    · intro h; exact Or.inr (Or.inr ⟨h1, h.symm⟩)
    · rintro (h | ⟨ha, hb⟩ | ⟨ha, hb⟩)
      · exact absurd (h.symm.trans h1) h2
      · exact absurd hb h2
      · exact hb.symm
  · rw [if_neg h1, if_pos h2]
    constructor
    · intro h; exact Or.inr (Or.inl ⟨h, h2⟩)
    · rintro (h | ⟨ha, hb⟩ | ⟨ha, hb⟩)
      · exact absurd (h.trans h2) h1
      · exact ha
      · exact absurd ha h1
  · rw [if_neg h1, if_neg h2]
    constructor
    · intro h; exact Or.inl h
    · rintro (h | ⟨ha, hb⟩ | ⟨ha, hb⟩)
      · exact h
      · exact absurd hb h2
      · exact absurd ha h1

/-! ### The Kruskal loop invariant -/

/-- Emitted air wires at the id level (inside a run). -/
def mstIds (s : KS) : List (Nat × Nat) := s.mst.map fun pq => (pq.1.id, pq.2.id)

/-- Invariant of the Kruskal loop over `n` points after processing the edges
`processed` (in order): the state is well-formed, the tag partition is the
connectivity of the processed edges, which also equals the connectivity of
{processed known edges} ∪ {emitted air wires}; the counters satisfy the
accounting identity tying `mstExpectedSize` to the number of components, the
`ratsnestLines` latch implies a processed candidate, and every emitted wire
stems from a distinct non-negative-weight processed edge whose endpoints were
in different components when emitted (hence already-merged afterwards). -/
structure Inv (n : Nat) (processed : List Edge) (s : KS) : Prop where
  wf : WF n s
  conn : ∀ i j, i < n → j < n → (tagRel s i j ↔ connOf (idPairs processed) i j)
  size : s.mstSize = s.mst.length
  count : s.expectedSize + (n - dTags n s.tags) = (n - 1) + s.mstSize
  ratlatch : s.ratsnest = true → ∃ e ∈ processed, 0 ≤ e.weight
  origin : ∀ pq ∈ s.mst, ∃ e ∈ processed, pq = (e.p1, e.p2) ∧ 0 ≤ e.weight ∧
    e.p1.id < n ∧ e.p2.id < n
  merged : ∀ pq ∈ s.mst, tagRel s pq.1.id pq.2.id
  nodupMst : (mstIds s).Nodup
  relEq : ∀ i j, connOf (idPairs processed) i j ↔
    connOf (idPairs (processed.filter fun e => decide (e.weight < 0)) ++ mstIds s) i j

theorem perm_append_middle {α : Type} (A B : List α) (x : α) :
    (A ++ [x] ++ B).Perm ((A ++ B) ++ [x]) := by
  rw [List.append_assoc]
  have hl : (A ++ (x :: B)).Perm (x :: (A ++ B)) := List.perm_middle
  have hr : (x :: (A ++ B)).Perm ((A ++ B) ++ [x]) :=
    (List.perm_append_singleton x (A ++ B)).symm
  exact hl.trans hr

theorem idPairs_append (es es' : List Edge) :
    idPairs (es ++ es') = idPairs es ++ idPairs es' := by
  simp [idPairs]

/-- Processing an edge whose endpoints are already connected (or leaving the
state untouched once the loop has stopped, which implies one component)
preserves the invariant. -/
theorem Inv_skipLike {n : Nat} {processed : List Edge} {s : KS}
    (hInv : Inv n processed s) (e : Edge)
    (hconn : connOf (idPairs processed) e.p1.id e.p2.id) :
    Inv n (processed ++ [e]) s := by
  have hip : idPairs (processed ++ [e]) = idPairs processed ++ [(e.p1.id, e.p2.id)] := by
    simp [idPairs]
  have hred := connOf_add_redundant hconn
  have hconn2 : connOf (idPairs (processed.filter fun e => decide (e.weight < 0)) ++
      mstIds s) e.p1.id e.p2.id := (hInv.relEq _ _).mp hconn
  refine ⟨hInv.wf, ?_, hInv.size, hInv.count, ?_, ?_, hInv.merged, hInv.nodupMst, ?_⟩
  · intro i j hi hj
    rw [hip, hred, hInv.conn i j hi hj]
  · intro h
    obtain ⟨e', he', hw⟩ := hInv.ratlatch h
    exact ⟨e', List.mem_append_left _ he', hw⟩
  · intro pq hpq
    obtain ⟨e', he', h⟩ := hInv.origin pq hpq
    exact ⟨e', List.mem_append_left _ he', h⟩
  · intro i j
    rw [hip, hred, hInv.relEq i j]
    by_cases hneg : e.weight < 0
    · rw [List.filter_append]
      have : (List.filter (fun e => decide (e.weight < 0)) [e]) = [e] := by
        simp [hneg]
      rw [this, idPairs_append]
      show _ ↔ connOf ((idPairs (processed.filter fun e => decide (e.weight < 0)) ++
        idPairs [e]) ++ mstIds s) i j
      have hperm := perm_append_middle
        (idPairs (processed.filter fun e => decide (e.weight < 0)))
        (mstIds s) (e.p1.id, e.p2.id)
      have : idPairs [e] = [(e.p1.id, e.p2.id)] := by simp [idPairs]
      rw [this]
      rw [connOf_perm hperm i j, connOf_add_redundant hconn2]
    · rw [List.filter_append]
      have : (List.filter (fun e => decide (e.weight < 0)) [e]) = [] := by
        simp [hneg]
      rw [this, List.append_nil]

theorem connOf_add_pair_congr {X Y : List (Nat × Nat)}
    (h : ∀ u v, connOf X u v ↔ connOf Y u v) (a b i j : Nat) :
    connOf (X ++ [(a, b)]) i j ↔ connOf (Y ++ [(a, b)]) i j := by
  rw [connOf_add_pair, connOf_add_pair]
  exact or_congr (h i j)
    (or_congr (and_congr (h i a) (h b j)) (and_congr (h i b) (h a j)))

/-- After a merge the tag partition is the old connectivity with the
processed edge's pair adjoined. -/
theorem merged_tags_conn {n : Nat} {processed : List Edge} {s : KS}
    (hInv : Inv n processed s) {e : Edge}
    (h1 : e.p1.id < n) (h2 : e.p2.id < n) :
    ∀ i j, i < n → j < n →
      (((retag s.tags (s.cycles.getD (s.tags.getD e.p2.id 0) [])
          (s.tags.getD e.p1.id 0)).getD i 0 =
        (retag s.tags (s.cycles.getD (s.tags.getD e.p2.id 0) [])
          (s.tags.getD e.p1.id 0)).getD j 0) ↔
      connOf (idPairs processed ++ [(e.p1.id, e.p2.id)]) i j) := by
  intro i j hi hj
  rw [tagRel_merge_iff hInv.wf (hInv.wf.tags_lt _ h2) hi hj, connOf_add_pair]
  have c3 : (s.tags.getD j 0 = s.tags.getD e.p2.id 0) ↔
      connOf (idPairs processed) e.p2.id j :=
    (hInv.conn j e.p2.id hj h2).trans ⟨connOf_symm, connOf_symm⟩
  have c5 : (s.tags.getD j 0 = s.tags.getD e.p1.id 0) ↔
      connOf (idPairs processed) e.p1.id j :=
    (hInv.conn j e.p1.id hj h1).trans ⟨connOf_symm, connOf_symm⟩
  exact or_congr (hInv.conn i j hi hj)
    (or_congr (and_congr (hInv.conn i e.p1.id hi h1) c3)
      (and_congr (hInv.conn i e.p2.id hi h2) c5))

/-- A merge removes exactly one live tag. -/
theorem merged_tags_count {n : Nat} {s : KS} (hWF : WF n s) {e : Edge}
    (h1 : e.p1.id < n) (h2 : e.p2.id < n)
    (hne : s.tags.getD e.p1.id 0 ≠ s.tags.getD e.p2.id 0) :
    2 ≤ dTags n s.tags ∧
    dTags n (retag s.tags (s.cycles.getD (s.tags.getD e.p2.id 0) [])
      (s.tags.getD e.p1.id 0)) = dTags n s.tags - 1 := by
  have hsrcmem : s.tags.getD e.p1.id 0 ∈
      (Finset.range n).image fun i => s.tags.getD i 0 :=
    Finset.mem_image_of_mem _ (Finset.mem_range.mpr h1)
  have htrgmem : s.tags.getD e.p2.id 0 ∈
      (Finset.range n).image fun i => s.tags.getD i 0 :=
    Finset.mem_image_of_mem _ (Finset.mem_range.mpr h2)
  constructor
  · exact Finset.one_lt_card.mpr
      ⟨_, hsrcmem, _, htrgmem, hne⟩
  · show ((Finset.range n).image fun i => (retag _ _ _).getD i 0).card = _
    rw [image_retag hWF (hWF.tags_lt _ h2) ⟨e.p1.id, h1, rfl⟩ hne,
      Finset.card_erase_of_mem htrgmem]
    rfl

/-- One gated loop iteration preserves the invariant.  The hypothesis `hrat`
(available whenever the run processes a weight-sorted list) says the latch
can only be set once the current edge already has candidate weight. -/
theorem Inv_gstep {n : Nat} (hn : 1 ≤ n) {processed : List Edge} {s : KS}
    (hInv : Inv n processed s) (e : Edge)
    (h1 : e.p1.id < n) (h2 : e.p2.id < n)
    (hrat : s.ratsnest = true → 0 ≤ e.weight) :
    Inv n (processed ++ [e]) (gstep s e) := by
  have hip : idPairs (processed ++ [e]) =
      idPairs processed ++ [(e.p1.id, e.p2.id)] := by simp [idPairs]
  by_cases hguard : s.mstSize < s.expectedSize
  · rw [show gstep s e = kstep s e from by unfold gstep; rw [if_pos hguard]]
    rcases kstep_cases s e with ⟨heq, hEq⟩ | ⟨hne, hcond, hEq⟩ | ⟨hne, hrf, hwneg, hEq⟩
    · rw [hEq]
      exact Inv_skipLike hInv e ((hInv.conn _ _ h1 h2).mp heq)
    · -- emitting merge
      have hw : 0 ≤ e.weight := hcond.elim hrat id
      have hWF' := WF_kstep hInv.wf e h1 h2
      rw [hEq] at hWF'
      obtain ⟨hd2, hdrop⟩ := merged_tags_count hInv.wf h1 h2 hne
      have hconn' := merged_tags_conn hInv h1 h2
      rw [hEq]
      refine ⟨hWF', ?_, ?_, ?_, ?_, ?_, ?_, ?_, ?_⟩
      · intro i j hi hj
        rw [hip]
        exact hconn' i j hi hj
      · show s.mstSize + 1 = (s.mst ++ [(e.p1, e.p2)]).length
        rw [List.length_append, hInv.size]
        rfl
      · show s.expectedSize +
            (n - dTags n (retag s.tags (s.cycles.getD (s.tags.getD e.p2.id 0) [])
              (s.tags.getD e.p1.id 0))) = (n - 1) + (s.mstSize + 1)
        have hc := hInv.count
        have hle := dTags_le n s.tags
        omega
      · intro _
        exact ⟨e, List.mem_append_right _ (List.mem_singleton_self e), hw⟩
      · intro pq hpq
        rcases List.mem_append.mp hpq with hpq | hpq
        · obtain ⟨e', he', h⟩ := hInv.origin pq hpq
          exact ⟨e', List.mem_append_left _ he', h⟩
        · rw [List.mem_singleton] at hpq
          subst hpq
          exact ⟨e, List.mem_append_right _ (List.mem_singleton_self e),
            rfl, hw, h1, h2⟩
      · intro pq hpq
        rcases List.mem_append.mp hpq with hpq | hpq
        · obtain ⟨e', he', hpe, hwe, ha, hb⟩ := hInv.origin pq hpq
          have ha' : pq.1.id < n := by rw [hpe]; exact ha
          have hb' : pq.2.id < n := by rw [hpe]; exact hb
          show (retag s.tags (s.cycles.getD (s.tags.getD e.p2.id 0) [])
              (s.tags.getD e.p1.id 0)).getD pq.1.id 0 =
            (retag s.tags (s.cycles.getD (s.tags.getD e.p2.id 0) [])
              (s.tags.getD e.p1.id 0)).getD pq.2.id 0
          rw [retag_members_getD hInv.wf (hInv.wf.tags_lt _ h2) _ _ ha',
            retag_members_getD hInv.wf (hInv.wf.tags_lt _ h2) _ _ hb',
            show s.tags.getD pq.1.id 0 = s.tags.getD pq.2.id 0 from
              hInv.merged pq hpq]
        · rw [List.mem_singleton] at hpq
          subst hpq
          show (retag s.tags (s.cycles.getD (s.tags.getD e.p2.id 0) [])
              (s.tags.getD e.p1.id 0)).getD e.p1.id 0 =
            (retag s.tags (s.cycles.getD (s.tags.getD e.p2.id 0) [])
              (s.tags.getD e.p1.id 0)).getD e.p2.id 0
          rw [retag_members_getD hInv.wf (hInv.wf.tags_lt _ h2) _ _ h1,
            retag_members_getD hInv.wf (hInv.wf.tags_lt _ h2) _ _ h2,
            ite_self, if_pos rfl]
      · show ((s.mst ++ [(e.p1, e.p2)]).map fun pq => (pq.1.id, pq.2.id)).Nodup
        rw [List.map_append]
        show (mstIds s ++ [(e.p1.id, e.p2.id)]).Nodup
        rw [List.nodup_append]
        refine ⟨hInv.nodupMst, List.nodup_singleton _, ?_⟩
        intro x hx hx2
        rw [List.mem_singleton] at hx2
        subst hx2
        obtain ⟨pq, hpq, hpqEq⟩ := List.mem_map.mp hx
        have := hInv.merged pq hpq
        rw [show pq.1.id = e.p1.id from congrArg Prod.fst hpqEq,
          show pq.2.id = e.p2.id from congrArg Prod.snd hpqEq] at this
        exact hne this
      · intro i j
        rw [hip]
        show connOf (idPairs processed ++ [(e.p1.id, e.p2.id)]) i j ↔
          connOf (idPairs ((processed ++ [e]).filter fun e => decide (e.weight < 0)) ++
            ((s.mst ++ [(e.p1, e.p2)]).map fun pq => (pq.1.id, pq.2.id))) i j
        rw [List.map_append, List.filter_append,
          show List.filter (fun e => decide (e.weight < 0)) [e] = [] by
            simp; omega,
          List.append_nil]
        show _ ↔ connOf (idPairs (processed.filter fun e => decide (e.weight < 0)) ++
          (mstIds s ++ [(e.p1.id, e.p2.id)])) i j
        rw [← List.append_assoc]
        exact connOf_add_pair_congr hInv.relEq e.p1.id e.p2.id i j
    · -- known (free) merge
      have hWF' := WF_kstep hInv.wf e h1 h2
      rw [hEq] at hWF'
      obtain ⟨hd2, hdrop⟩ := merged_tags_count hInv.wf h1 h2 hne
      have hconn' := merged_tags_conn hInv h1 h2
      rw [hEq]
      refine ⟨hWF', ?_, hInv.size, ?_, ?_, ?_, ?_, hInv.nodupMst, ?_⟩
      · intro i j hi hj
        rw [hip]
        exact hconn' i j hi hj
      · show s.expectedSize - 1 +
            (n - dTags n (retag s.tags (s.cycles.getD (s.tags.getD e.p2.id 0) [])
              (s.tags.getD e.p1.id 0))) = (n - 1) + s.mstSize
        have hc := hInv.count
        have hle := dTags_le n s.tags
        omega
      · intro h
        simp at h
      · intro pq hpq
        obtain ⟨e', he', h⟩ := hInv.origin pq hpq
        exact ⟨e', List.mem_append_left _ he', h⟩
      · intro pq hpq
        obtain ⟨e', he', hpe, hwe, ha, hb⟩ := hInv.origin pq hpq
        have ha' : pq.1.id < n := by rw [hpe]; exact ha
        have hb' : pq.2.id < n := by rw [hpe]; exact hb
        show (retag s.tags (s.cycles.getD (s.tags.getD e.p2.id 0) [])
            (s.tags.getD e.p1.id 0)).getD pq.1.id 0 =
          (retag s.tags (s.cycles.getD (s.tags.getD e.p2.id 0) [])
            (s.tags.getD e.p1.id 0)).getD pq.2.id 0
        rw [retag_members_getD hInv.wf (hInv.wf.tags_lt _ h2) _ _ ha',
          retag_members_getD hInv.wf (hInv.wf.tags_lt _ h2) _ _ hb',
          show s.tags.getD pq.1.id 0 = s.tags.getD pq.2.id 0 from
            hInv.merged pq hpq]
      · intro i j
        rw [hip]
        show connOf (idPairs processed ++ [(e.p1.id, e.p2.id)]) i j ↔
          connOf (idPairs ((processed ++ [e]).filter fun e => decide (e.weight < 0)) ++
            mstIds s) i j
        rw [List.filter_append,
          show List.filter (fun e => decide (e.weight < 0)) [e] = [e] by
            simp [hwneg],
          idPairs_append,
          show idPairs [e] = [(e.p1.id, e.p2.id)] from by simp [idPairs]]
        have hperm := perm_append_middle
          (idPairs (processed.filter fun e => decide (e.weight < 0)))
          (mstIds s) (e.p1.id, e.p2.id)
        rw [connOf_perm hperm i j]
        exact connOf_add_pair_congr hInv.relEq e.p1.id e.p2.id i j
  · rw [gstep_stopped hguard]
    have hd1 : dTags n s.tags = 1 := by
      have hc := hInv.count
      have hle := dTags_le n s.tags
      have hpos := dTags_pos hn s.tags
      omega
    exact Inv_skipLike hInv e
      ((hInv.conn _ _ h1 h2).mp (tagRel_of_dTags_eq_one hd1 h1 h2))

/-- The invariant holds at the start of a run (for up to `2^32` points,
below the wrap of the unsigned `mstExpectedSize`). -/
theorem Inv_init {n : Nat} (hn : 1 ≤ n) (hn32 : n ≤ 4294967296)
    (ps : List V2) (hps : ps.length = n) :
    Inv n [] (initKS ps) := by
  have htags : ∀ i, i < n → (List.range ps.length).getD i 0 = i := by
    intro i hi
    rw [List.getD_eq_getElem _ _ (by simpa [hps] using hi)]
    simp
  refine ⟨hps ▸ WF_initKS ps, ?_, rfl, ?_, ?_, ?_, ?_, ?_, ?_⟩
  · intro i j hi hj
    show (List.range ps.length).getD i 0 = (List.range ps.length).getD j 0 ↔ _
    rw [htags i hi, htags j hj]
    show i = j ↔ connOf (idPairs []) i j
    rw [show idPairs [] = [] from rfl, connOf_nil]
  · show (ps.length + 4294967295) % 4294967296 + (n - dTags n (List.range ps.length)) =
      (n - 1) + 0
    have himg : dTags n (List.range ps.length) = n := by
      have : ((Finset.range n).image fun i => (List.range ps.length).getD i 0) =
          Finset.range n := by
        apply Finset.ext
        intro u
        simp only [Finset.mem_image, Finset.mem_range]
        constructor
        · rintro ⟨i, hi, hEq⟩
          rw [htags i hi] at hEq
          omega
        · intro hu
          exact ⟨u, hu, htags u hu⟩
      rw [dTags, this, Finset.card_range]
    rw [himg, hps]
    omega
  · intro h; simp [initKS] at h
  · intro pq hpq; simp [initKS] at hpq
  · intro pq hpq; simp [initKS] at hpq
  · simp [initKS, mstIds]
  · intro i j
    rw [show mstIds (initKS ps) = [] from by simp [initKS, mstIds]]
    simp

/-- The master induction: at every point of a sorted run the invariant holds
for the processed part of the edge list. -/
theorem Inv_foldl {n : Nat} (hn : 1 ≤ n) (hn32 : n ≤ 4294967296)
    (ps : List V2) (hps : ps.length = n)
    (L : List Edge) (hval : ∀ e ∈ L, e.p1.id < n ∧ e.p2.id < n)
    (hsort : L.Pairwise fun a b => a.weight ≤ b.weight) :
    ∀ k, Inv n (L.take k) ((L.take k).foldl gstep (initKS ps)) := by
  intro k
  induction k with
  | zero => simpa using Inv_init hn hn32 ps hps
  | succ k ih =>
    by_cases hk : k < L.length
    · have htake : L.take (k + 1) = L.take k ++ [L[k]] := by
        rw [List.take_succ, List.getElem?_eq_getElem hk]
        rfl
      rw [htake, List.foldl_append]
      have hmem : L[k] ∈ L := List.getElem_mem hk
      have hpw : (L.take k ++ [L[k]]).Pairwise fun a b => a.weight ≤ b.weight := by
        rw [← htake]
        exact hsort.sublist (List.take_sublist _ _)
      have hcross := (List.pairwise_append.mp hpw).2.2
      have hrat : ((L.take k).foldl gstep (initKS ps)).ratsnest = true →
          0 ≤ L[k].weight := by
        intro h
        obtain ⟨e', he', hw⟩ := ih.ratlatch h
        have := hcross e' he' L[k] (List.mem_singleton_self _)
        omega
      exact Inv_gstep hn ih L[k] (hval _ hmem).1 (hval _ hmem).2 hrat
    · have h1 : L.take (k + 1) = L.take k := by
        rw [List.take_of_length_le (by omega), List.take_of_length_le (by omega)]
      rw [h1]
      exact ih

/-! ### Properties of the sorted processing order -/

instance : IsTotal Edge fun a b => b.weight ≤ a.weight :=
  ⟨fun a b => le_total b.weight a.weight⟩

instance : IsTrans Edge fun a b => b.weight ≤ a.weight :=
  ⟨fun _ _ _ h1 h2 => le_trans h2 h1⟩

theorem sortEdgesDesc_perm (es : List Edge) : (sortEdgesDesc es).Perm es :=
  List.perm_insertionSort _ es

theorem procListOf_perm (es : List Edge) : (procListOf es).Perm es :=
  (List.reverse_perm _).trans (sortEdgesDesc_perm es)

theorem procListOf_sorted (es : List Edge) :
    (procListOf es).Pairwise fun a b => a.weight ≤ b.weight := by
  rw [procListOf, List.pairwise_reverse]
  exact List.sorted_insertionSort _ es

/-- A weight-sorted list splits into its negative part followed by its
non-negative part. -/
theorem sorted_sign_split (L : List Edge)
    (hsort : L.Pairwise fun a b => a.weight ≤ b.weight) :
    L = (L.takeWhile fun e => decide (e.weight < 0)) ++
        (L.dropWhile fun e => decide (e.weight < 0)) ∧
    (∀ e ∈ L.takeWhile fun e => decide (e.weight < 0), e.weight < 0) ∧
    (∀ e ∈ L.dropWhile fun e => decide (e.weight < 0), 0 ≤ e.weight) := by
  refine ⟨(List.takeWhile_append_dropWhile _ _).symm, ?_, ?_⟩
  · intro e he
    have := List.mem_takeWhile_imp he
    simpa using this
  · induction L with
    | nil => intro e he; simp at he
    | cons a L' ih =>
      rw [List.pairwise_cons] at hsort
      by_cases ha : (fun e : Edge => decide (e.weight < 0)) a = true
      · rw [List.dropWhile_cons, if_pos ha]
        exact ih hsort.2
      · rw [List.dropWhile_cons, if_neg ha]
        intro e he
        rcases List.mem_cons.mp he with rfl | he
        · simpa using ha
        · have h1 := hsort.1 e he
          have h2 : ¬ a.weight < 0 := by simpa using ha
          omega

theorem expectedSize_foldl_nonneg (C : List Edge)
    (hC : ∀ e ∈ C, 0 ≤ e.weight) (s : KS) :
    (C.foldl gstep s).expectedSize = s.expectedSize := by
  induction C generalizing s with
  | nil => rfl
  | cons e C' ih =>
    rw [List.foldl_cons, ih (fun x hx => hC x (List.mem_cons_of_mem _ hx))]
    unfold gstep
    split
    · rcases kstep_cases s e with ⟨_, hEq⟩ | ⟨_, _, hEq⟩ | ⟨_, _, hwneg, hEq⟩
      · rw [hEq]
      · rw [hEq]
      · exact absurd (hC e (List.mem_cons_self _ _)) (by omega)
    · rfl

/-! ### Facts about the builder's edge lists -/

theorem storedPoints_length (coords : List (Int × Int)) :
    (storedPoints coords).length = coords.length := by
  simp [storedPoints]

theorem storedPoints_getElem (coords : List (Int × Int)) (i : Nat)
    (hi : i < (storedPoints coords).length) :
    (storedPoints coords)[i] =
      ⟨fround (coords.get ⟨i, by simpa [storedPoints_length] using hi⟩).1,
       fround (coords.get ⟨i, by simpa [storedPoints_length] using hi⟩).2, i, 0⟩ := by
  simp [storedPoints]

theorem mem_storedPoints_id {coords : List (Int × Int)} {p : V2}
    (hp : p ∈ storedPoints coords) : p.id < coords.length := by
  obtain ⟨i, hi, hEq⟩ := List.mem_iff_getElem.mp hp
  rw [storedPoints_getElem coords i hi] at hEq
  rw [← hEq]
  simpa [storedPoints_length] using hi

theorem storedPoints_getD_id (coords : List (Int × Int)) {i : Nat}
    (hi : i < coords.length) :
    ((storedPoints coords).getD i default).id = i := by
  rw [List.getD_eq_getElem _ _ (by simpa [storedPoints_length] using hi),
    storedPoints_getElem]

theorem pathEdges_mem {l : List V2} {e : Edge} (he : e ∈ pathEdges l) :
    e.p1 ∈ l ∧ e.p2 ∈ l ∧ e.weight = -1 := by
  induction l with
  | nil => simp [pathEdges] at he
  | cons a l' ih =>
    match l', he with
    | [], he => simp [pathEdges] at he
    | b :: rest, he =>
      rw [pathEdges] at he
      rcases List.mem_cons.mp he with rfl | he
      · exact ⟨List.mem_cons_self _ _,
          List.mem_cons_of_mem _ (List.mem_cons_self _ _), rfl⟩
      · obtain ⟨hm1, hm2, hw⟩ := ih he
        exact ⟨List.mem_cons_of_mem _ hm1, List.mem_cons_of_mem _ hm2, hw⟩

theorem mem_sortByX {ps : List V2} {p : V2} : p ∈ sortByX ps ↔ p ∈ ps :=
  (List.perm_insertionSort _ ps).mem_iff

theorem candidateEdges_mem {colinear : Bool} {tri : List V2 → List Edge}
    {ps : List V2} {e : Edge}
    (htri : ∀ e ∈ tri ps, e.p1 ∈ ps ∧ e.p2 ∈ ps)
    (he : e ∈ candidateEdges colinear tri ps) : e.p1 ∈ ps ∧ e.p2 ∈ ps := by
  unfold candidateEdges at he
  split at he
  · simp at he
  · split at he
    · rw [List.mem_singleton] at he
      subst he
      rename_i hlen1 hlen2
      constructor
      · show ps.getD 0 default ∈ ps
        rw [List.getD_eq_getElem _ _ (by omega)]
        exact List.getElem_mem _
      · show ps.getD 1 default ∈ ps
        rw [List.getD_eq_getElem _ _ (by omega)]
        exact List.getElem_mem _
    · split at he
      · obtain ⟨h1, h2, _⟩ := pathEdges_mem he
        exact ⟨mem_sortByX.mp h1, mem_sortByX.mp h2⟩
      · exact htri e he

theorem withWeights_forall {es : List Edge} {e : Edge}
    (he : e ∈ withWeights es) :
    0 ≤ e.weight ∧ ∃ e0 ∈ es, e.p1 = e0.p1 ∧ e.p2 = e0.p2 := by
  obtain ⟨e0, he0, hEq⟩ := List.mem_map.mp he
  subst hEq
  exact ⟨fdist2_nonneg _ _, e0, he0, rfl, rfl⟩

theorem knownEdge_weight (coords : List (Int × Int)) (knowns : List (Nat × Nat)) :
    ∀ e ∈ (builderOf coords knowns).mEdges, e.weight = -1 := by
  intro e he
  obtain ⟨ij, _, hEq⟩ := List.mem_map.mp he
  rw [← hEq]
  rfl

/-- Every edge handed to the Kruskal pass has in-range endpoint ids. -/
theorem allEdges_valid {colinear : Bool} {tri : List V2 → List Edge}
    {coords : List (Int × Int)} {knowns : List (Nat × Nat)}
    (hkval : ∀ ij ∈ knowns, ij.1 < coords.length ∧ ij.2 < coords.length)
    (htri : ∀ e ∈ tri (storedPoints coords),
      e.p1 ∈ storedPoints coords ∧ e.p2 ∈ storedPoints coords) :
    ∀ e ∈ allEdges colinear tri (builderOf coords knowns),
      e.p1.id < coords.length ∧ e.p2.id < coords.length := by
  intro e he
  rcases List.mem_append.mp he with he | he
  · obtain ⟨ij, hij, hEq⟩ := List.mem_map.mp he
    rw [← hEq]
    unfold knownEdgeOf
    constructor
    · show ((storedPoints coords).getD ij.1 default).id < _
      rw [storedPoints_getD_id coords (hkval ij hij).1]
      exact (hkval ij hij).1
    · show ((storedPoints coords).getD ij.2 default).id < _
      rw [storedPoints_getD_id coords (hkval ij hij).2]
      exact (hkval ij hij).2
  · obtain ⟨_, e0, he0, h1, h2⟩ := withWeights_forall he
    obtain ⟨hm1, hm2⟩ := candidateEdges_mem htri he0
    rw [h1, h2]
    exact ⟨mem_storedPoints_id hm1, mem_storedPoints_id hm2⟩

/-! ### Counting connected components -/

open Classical in
/-- Number of connected components of the undirected graph on the vertices
`0, …, n-1` with edge list `l`: every component is counted at its smallest
vertex. -/
noncomputable def numComponents (l : List (Nat × Nat)) (n : Nat) : Nat :=
  ((Finset.range n).filter fun i => ∀ j, j < i → ¬ connOf l j i).card

/-- A tag assignment whose partition is the connectivity of `l` has exactly
one tag value per component. -/
theorem dTags_eq_numComponents {n : Nat} {tags : List Nat} {l : List (Nat × Nat)}
    (hrel : ∀ i j, i < n → j < n → (tags.getD i 0 = tags.getD j 0 ↔ connOf l i j)) :
    dTags n tags = numComponents l n := by
  classical
  rw [dTags, numComponents]
  symm
  have hex : ∀ v ∈ (Finset.range n).image fun i => tags.getD i 0,
      ∃ i, i < n ∧ tags.getD i 0 = v := by
    intro v hv
    rw [Finset.mem_image] at hv
    obtain ⟨i, hi, hEq⟩ := hv
    exact ⟨i, Finset.mem_range.mp hi, hEq⟩
  refine Finset.card_bij' (i := fun a _ => tags.getD a 0)
    (j := fun v hv => Nat.find (hex v hv)) ?_ ?_ ?_ ?_
  · intro a ha
    rw [Finset.mem_filter, Finset.mem_range] at ha
    exact Finset.mem_image_of_mem _ (Finset.mem_range.mpr ha.1)
  · intro v hv
    have hspec := Nat.find_spec (hex v hv)
    rw [Finset.mem_filter, Finset.mem_range]
    refine ⟨hspec.1, ?_⟩
    intro j hj hconn
    have hj' : j < n := lt_trans hj hspec.1
    have hv' : tags.getD j 0 = v := by
      rw [← hspec.2]
      exact (hrel j (Nat.find (hex v hv)) hj' hspec.1).mpr hconn
    exact Nat.find_min (hex v hv) hj ⟨hj', hv'⟩
  · intro a ha
    rw [Finset.mem_filter, Finset.mem_range] at ha
    have hmem := Finset.mem_image_of_mem (fun i => tags.getD i 0)
      (Finset.mem_range.mpr ha.1)
    show Nat.find (hex _ hmem) = a
    have hspec := Nat.find_spec (hex _ hmem)
    have hle : Nat.find (hex _ hmem) ≤ a := Nat.find_le ⟨ha.1, rfl⟩
    rcases Nat.lt_or_ge (Nat.find (hex _ hmem)) a with hlt | hge
    · exact absurd ((hrel _ a hspec.1 ha.1).mp hspec.2) (ha.2 _ hlt)
    · omega
  · intro v hv
    exact (Nat.find_spec (hex v hv)).2

/-- A tag array whose values all agree has a single component. -/
theorem dTags_eq_one_of_all {n : Nat} {tags : List Nat} (hn : 1 ≤ n)
    (h : ∀ i j, i < n → j < n → tags.getD i 0 = tags.getD j 0) :
    dTags n tags = 1 := by
  rw [dTags, Finset.card_eq_one]
  refine ⟨tags.getD 0 0, ?_⟩
  apply Finset.ext
  intro u
  rw [Finset.mem_image, Finset.mem_singleton]
  constructor
  · rintro ⟨i, hi, hEq⟩
    rw [← hEq]
    exact h i 0 (Finset.mem_range.mp hi) hn
  · rintro rfl
    exact ⟨0, Finset.mem_range.mpr hn, rfl⟩

/-! ### Run-level analysis -/

theorem idPairs_knownEdges (coords : List (Int × Int)) (knowns : List (Nat × Nat))
    (hkval : ∀ ij ∈ knowns, ij.1 < coords.length ∧ ij.2 < coords.length) :
    idPairs ((builderOf coords knowns).mEdges) = knowns := by
  show idPairs (knowns.map (knownEdgeOf (storedPoints coords))) = knowns
  rw [idPairs, List.map_map]
  have : ∀ ij ∈ knowns,
      ((fun e : Edge => (e.p1.id, e.p2.id)) ∘ knownEdgeOf (storedPoints coords)) ij
        = ij := by
    intro ij hij
    show (((storedPoints coords).getD ij.1 default).id,
      ((storedPoints coords).getD ij.2 default).id) = ij
    rw [storedPoints_getD_id coords (hkval ij hij).1,
      storedPoints_getD_id coords (hkval ij hij).2]
  rw [List.map_congr_left this]
  simp

/-- The invariant at the end of a full run of `buildAirWires`. -/
theorem Inv_buildRun {colinear : Bool} {tri : List V2 → List Edge}
    {coords : List (Int × Int)} {knowns : List (Nat × Nat)}
    (hn : 1 ≤ coords.length) (hn32 : coords.length ≤ 4294967296)
    (hvalAll : ∀ e ∈ allEdges colinear tri (builderOf coords knowns),
      e.p1.id < coords.length ∧ e.p2.id < coords.length) :
    Inv coords.length (procListOf (allEdges colinear tri (builderOf coords knowns)))
      (buildRun colinear tri (builderOf coords knowns)).1 := by
  have hval : ∀ e ∈ procListOf (allEdges colinear tri (builderOf coords knowns)),
      e.p1.id < coords.length ∧ e.p2.id < coords.length := by
    intro e he
    exact hvalAll e ((procListOf_perm _).mem_iff.mp he)
  have h := Inv_foldl hn hn32 (storedPoints coords) (storedPoints_length coords)
    (procListOf (allEdges colinear tri (builderOf coords knowns))) hval
    (procListOf_sorted _)
    (procListOf (allEdges colinear tri (builderOf coords knowns))).length
  rw [List.take_length] at h
  show Inv _ _ (kloop (initKS (builderOf coords knowns).mPoints) _).1
  rw [kloop_fst_eq_foldl]
  exact h

/-- Central counting theorem: if the complete edge list connects all points,
the run emits exactly (number of components of the known edges) − 1 wires. -/
theorem buildRun_count {colinear : Bool} {tri : List V2 → List Edge}
    {coords : List (Int × Int)} {knowns : List (Nat × Nat)}
    (hn : 1 ≤ coords.length) (hn32 : coords.length ≤ 4294967296)
    (hkval : ∀ ij ∈ knowns, ij.1 < coords.length ∧ ij.2 < coords.length)
    (hvalAll : ∀ e ∈ allEdges colinear tri (builderOf coords knowns),
      e.p1.id < coords.length ∧ e.p2.id < coords.length)
    (hconn : ∀ i j, i < coords.length → j < coords.length →
      connOf (idPairs (allEdges colinear tri (builderOf coords knowns))) i j) :
    (buildRun colinear tri (builderOf coords knowns)).1.mst.length + 1 =
      numComponents knowns coords.length := by
  set n := coords.length with hn_def
  set b := builderOf coords knowns with hb_def
  set L := procListOf (allEdges colinear tri b) with hL_def
  obtain ⟨hsplit, hKneg, hCpos⟩ := sorted_sign_split L (procListOf_sorted _)
  set K := L.takeWhile fun e => decide (e.weight < 0) with hK_def
  set C := L.dropWhile fun e => decide (e.weight < 0) with hC_def
  have hval : ∀ e ∈ L, e.p1.id < n ∧ e.p2.id < n := by
    intro e he
    exact hvalAll e ((procListOf_perm _).mem_iff.mp he)
  have hInvAll := Inv_foldl hn hn32 (storedPoints coords) (storedPoints_length coords)
    L hval (procListOf_sorted _)
  -- the state after the known (negative-weight) block
  have htakeK : L.take K.length = K := by
    rw [hsplit]
    exact List.take_left _ _
  have hInvK := hInvAll K.length
  rw [htakeK] at hInvK
  set sK := K.foldl gstep (initKS (storedPoints coords)) with hsK_def
  -- no wires are emitted while processing known edges
  have hmstK : sK.mst = [] := by
    rw [List.eq_nil_iff_forall_not_mem]
    intro pq hpq
    obtain ⟨e, he, _, hw, _, _⟩ := hInvK.origin pq hpq
    exact absurd hw (by have := hKneg e he; omega)
  have hmstSizeK : sK.mstSize = 0 := by rw [hInvK.size, hmstK]; rfl
  -- the tag partition after the known block is the connectivity of `knowns`
  have hKperm : K.Perm b.mEdges := by
    have h1 : L.filter (fun e => decide (e.weight < 0)) = K := by
      conv_lhs => rw [hsplit]
      rw [List.filter_append, List.filter_eq_self.mpr (by
          intro e he; simpa using hKneg e he),
        List.filter_eq_nil_iff.mpr (by
          intro e he; have := hCpos e he; simpa using by omega)]
      simp
    have h2 : (allEdges colinear tri b).filter (fun e => decide (e.weight < 0)) =
        b.mEdges := by
      rw [allEdges, List.filter_append, List.filter_eq_self.mpr (by
          intro e he
          have := knownEdge_weight coords knowns e he
          simpa using by omega),
        List.filter_eq_nil_iff.mpr (by
          intro e he
          have := (withWeights_forall he).1
          simpa using by omega)]
      simp
    rw [← h1, ← h2]
    exact (procListOf_perm _).filter _
  have hconnK : ∀ i j, connOf (idPairs K) i j ↔ connOf knowns i j := by
    intro i j
    have hp : (idPairs K).Perm (idPairs b.mEdges) := hKperm.map _
    rw [connOf_perm hp i j, idPairs_knownEdges coords knowns hkval]
  -- count of components after the known block
  have hdK : dTags n sK.tags = numComponents knowns n := by
    apply dTags_eq_numComponents
    intro i j hi hj
    rw [show (sK.tags.getD i 0 = sK.tags.getD j 0) ↔ connOf (idPairs K) i j from
      hInvK.conn i j hi hj, hconnK]
  -- final state
  have hInvF := hInvAll L.length
  rw [List.take_length] at hInvF
  set sF := L.foldl gstep (initKS (storedPoints coords)) with hsF_def
  have hsFK : sF = C.foldl gstep sK := by
    rw [hsF_def, hsK_def]
    conv_lhs => rw [hsplit]
    rw [List.foldl_append]
  have hexpF : sF.expectedSize = sK.expectedSize := by
    rw [hsFK]
    exact expectedSize_foldl_nonneg C hCpos sK
  have hdF : dTags n sF.tags = 1 := by
    apply dTags_eq_one_of_all hn
    intro i j hi hj
    exact (hInvF.conn i j hi hj).mpr
      ((connOf_perm ((procListOf_perm _).map _) i j).mpr (hconn i j hi hj))
  have hcK := hInvK.count
  have hcF := hInvF.count
  have hszF := hInvF.size
  have hle := dTags_le n sK.tags
  have hpos := dTags_pos hn sK.tags
  -- combine
  show (buildRun colinear tri b).1.mst.length + 1 = numComponents knowns n
  have hrun : (buildRun colinear tri b).1 = sF := by
    show (kloop (initKS b.mPoints) L).1 = sF
    rw [kloop_fst_eq_foldl]
    rfl
  rw [hrun]
  omega

/-! ### Claim C1 -/

theorem numComponents_zero (l : List (Nat × Nat)) : numComponents l 0 = 0 := by
  classical
  simp [numComponents]

/-- C1: for every point set and every set of known edges with valid endpoint
ids, provided the full candidate set connects the components induced by the
known edges (equivalently, all edges together connect all points — true by
construction for the triangulation, 2-point and collinear branches),
`buildAirWires` emits exactly (number of connected components of the known
edges) − 1 air wires (`Nat` subtraction, so `0` for an empty point set); in
particular adding known edges lowers the emitted count by exactly the number
of component merges they perform.  The point count is bounded by `2^32`, the
wrap of the C++ `unsigned mstExpectedSize`; the Delaunay collaborator `tri`
is abstract (its output must stay within the point set). -/
theorem C1_airwire_count
    (colinear : Bool) (tri : List V2 → List Edge)
    (coords : List (Int × Int)) (knowns : List (Nat × Nat))
    (hn32 : coords.length ≤ 4294967296)
    (hkval : ∀ ij ∈ knowns, ij.1 < coords.length ∧ ij.2 < coords.length)
    (htri : ∀ e ∈ tri (storedPoints coords),
      e.p1 ∈ storedPoints coords ∧ e.p2 ∈ storedPoints coords)
    (hconn : ∀ i j, i < coords.length → j < coords.length →
      connOf (idPairs (allEdges colinear tri (builderOf coords knowns))) i j) :
    (buildAirWires colinear tri (builderOf coords knowns)).length =
      numComponents knowns coords.length - 1 := by
  by_cases hn : 1 ≤ coords.length
  · have hcount := buildRun_count hn hn32 hkval (allEdges_valid hkval htri) hconn
    show ((buildRun colinear tri (builderOf coords knowns)).1.mst.map _).length = _
    rw [List.length_map]
    omega
  · have hc0 : coords = [] := by
      cases coords with
      | nil => rfl
      | cons a l => exact absurd (by simp) hn
    subst hc0
    have hk0 : knowns = [] := by
      cases knowns with
      | nil => rfl
      | cons ij l => exact absurd ((hkval ij (List.mem_cons_self _ _)).1) (by simp)
    subst hk0
    simp only [List.length_nil]
    rw [numComponents_zero]
    rfl

/-- Witness for C1 at a concrete three-point net with one known edge:
two components remain after the known edge, so exactly one air wire. -/
theorem C1_airwire_count_witness :
    (buildAirWires false (fun ps => pathEdges ps)
        (builderOf [(0, 0), (3, 0), (7, 1)] [(0, 1)])).length =
      numComponents [(0, 1)] 3 - 1 := by
  have hpairs : idPairs (allEdges false (fun ps => pathEdges ps)
      (builderOf [(0, 0), (3, 0), (7, 1)] [(0, 1)])) = [(0, 1), (0, 1), (1, 2)] := by
    decide
  have h01 : connOf (idPairs (allEdges false (fun ps => pathEdges ps)
      (builderOf [(0, 0), (3, 0), (7, 1)] [(0, 1)]))) 0 1 :=
    connOf_of_mem (by rw [hpairs]; decide)
  have h12 : connOf (idPairs (allEdges false (fun ps => pathEdges ps)
      (builderOf [(0, 0), (3, 0), (7, 1)] [(0, 1)]))) 1 2 :=
    connOf_of_mem (by rw [hpairs]; decide)
  refine C1_airwire_count false (fun ps => pathEdges ps)
    [(0, 0), (3, 0), (7, 1)] [(0, 1)] (by decide) (by decide) (by decide) ?_
  intro i j hi hj
  simp only [List.length_cons, List.length_nil] at hi hj
  interval_cases i <;> interval_cases j
  · exact connOf_refl _ _
  · exact h01
  · exact connOf_trans h01 h12
  · exact connOf_symm h01
  · exact connOf_refl _ _
  · exact h12
  · exact connOf_symm (connOf_trans h01 h12)
  · exact connOf_symm h12
  · exact connOf_refl _ _

/-! ### Claim C2 -/

theorem numComponents_nil (n : Nat) : numComponents [] n = n := by
  classical
  rw [numComponents, Finset.filter_true_of_mem, Finset.card_range]
  intro i _ j hj hc
  rw [connOf_nil] at hc
  omega

theorem allEdges_no_knowns_nonneg (colinear : Bool) (tri : List V2 → List Edge)
    (coords : List (Int × Int)) :
    ∀ e ∈ allEdges colinear tri (builderOf coords []), 0 ≤ e.weight := by
  intro e he
  rcases List.mem_append.mp he with he | he
  · simp [builderOf] at he
  · exact (withWeights_forall he).1

/-- C2: with zero known edges the builder returns exactly
`max(0, pointCount − 1)` air wires (`Nat` subtraction); for `N ≥ 3` points
the returned wires alone connect every point to every other (together with
the count this is a spanning tree); and two coincident unconnected points
yield exactly one zero-length air wire.  The Delaunay collaborator is
abstract; the hypothesis `hconn` states that the generated candidate set
connects the points (true by construction for the concrete branches, assumed
for the triangulation per the specification). -/
theorem C2_spanning_tree
    (colinear : Bool) (tri : List V2 → List Edge)
    (coords : List (Int × Int))
    (hn32 : coords.length ≤ 4294967296)
    (htri : ∀ e ∈ tri (storedPoints coords),
      e.p1 ∈ storedPoints coords ∧ e.p2 ∈ storedPoints coords)
    (hconn : ∀ i j, i < coords.length → j < coords.length →
      connOf (idPairs (allEdges colinear tri (builderOf coords []))) i j) :
    (buildAirWires colinear tri (builderOf coords [])).length = coords.length - 1 ∧
    (3 ≤ coords.length → ∀ i j, i < coords.length → j < coords.length →
      connOf (airWireIds colinear tri (builderOf coords [])) i j) ∧
    buildAirWires false (fun _ => []) (builderOf [(100, 200), (100, 200)] []) =
      [((100, 200), (100, 200))] := by
  have hkval : ∀ ij ∈ ([] : List (Nat × Nat)),
      ij.1 < coords.length ∧ ij.2 < coords.length := by simp
  have hvalAll := @allEdges_valid colinear tri coords [] hkval htri
  refine ⟨?_, ?_, by decide⟩
  · by_cases hn : 1 ≤ coords.length
    · have hcount := buildRun_count hn hn32 hkval hvalAll hconn
      rw [numComponents_nil] at hcount
      show ((buildRun colinear tri (builderOf coords [])).1.mst.map _).length = _
      rw [List.length_map]
      omega
    · have hc0 : coords = [] := by
        cases coords with
        | nil => rfl
        | cons a l => exact absurd (by simp) hn
      subst hc0
      rfl
  · intro h3 i j hi hj
    have hn : 1 ≤ coords.length := by omega
    have hInvF := Inv_buildRun hn hn32 hvalAll
    have hfilter : (procListOf (allEdges colinear tri
        (builderOf coords []))).filter (fun e => decide (e.weight < 0)) = [] := by
      rw [List.eq_nil_iff_forall_not_mem]
      intro e he
      rw [List.mem_filter] at he
      have h0 := allEdges_no_knowns_nonneg colinear tri coords e
        ((procListOf_perm _).mem_iff.mp he.1)
      have := he.2
      simp at this
      omega
    have hLconn : connOf (idPairs (procListOf (allEdges colinear tri
        (builderOf coords [])))) i j :=
      (connOf_perm ((procListOf_perm _).map _) i j).mpr (hconn i j hi hj)
    have h := (hInvF.relEq i j).mp hLconn
    rw [hfilter] at h
    show connOf (mstIds (buildRun colinear tri (builderOf coords [])).1) i j
    simpa [idPairs] using h

/-- Witness for C2 at three collinear points with no known edges. -/
theorem C2_spanning_tree_witness :
    ((buildAirWires true (fun _ => []) (builderOf [(0, 0), (5, 5), (9, 9)] [])).length
        = 2) ∧
    (∀ i j, i < 3 → j < 3 →
      connOf (airWireIds true (fun _ => []) (builderOf [(0, 0), (5, 5), (9, 9)] [])) i j) := by
  have hc := C2_spanning_tree true (fun _ => []) [(0, 0), (5, 5), (9, 9)]
    (by decide) (by decide) ?_
  · refine ⟨by simpa using hc.1, ?_⟩
    intro i j hi hj
    exact hc.2.1 (by decide) i j (by simpa using hi) (by simpa using hj)
  · have hpairs : idPairs (allEdges true (fun _ => [])
        (builderOf [(0, 0), (5, 5), (9, 9)] [])) = [(0, 1), (1, 2)] := by decide
    have h01 : connOf (idPairs (allEdges true (fun _ => [])
        (builderOf [(0, 0), (5, 5), (9, 9)] []))) 0 1 :=
      connOf_of_mem (by rw [hpairs]; decide)
    have h12 : connOf (idPairs (allEdges true (fun _ => [])
        (builderOf [(0, 0), (5, 5), (9, 9)] []))) 1 2 :=
      connOf_of_mem (by rw [hpairs]; decide)
    intro i j hi hj
    simp only [List.length_cons, List.length_nil] at hi hj
    interval_cases i <;> interval_cases j
    · exact connOf_refl _ _
    · exact h01
    · exact connOf_trans h01 h12
    · exact connOf_symm h01
    · exact connOf_refl _ _
    · exact h12
    · exact connOf_symm (connOf_trans h01 h12)
    · exact connOf_symm h12
    · exact connOf_refl _ _

/-! ### Claim C3: the collinear branch emits the x-sorted path -/

theorem candidateEdges_colinear (tri : List V2 → List Edge) (ps : List V2)
    (h3 : 3 ≤ ps.length) :
    candidateEdges true tri ps = pathEdges (sortByX ps) := by
  unfold candidateEdges
  rw [if_neg (by omega), if_neg (by omega), if_pos rfl]

theorem pathEdges_length : ∀ l : List V2, (pathEdges l).length = l.length - 1
  | [] => rfl
  | [_] => rfl
  | a :: b :: rest => by
    rw [pathEdges, List.length_cons, pathEdges_length (b :: rest)]
    simp

theorem idPairs_pathEdges_snd : ∀ l : List V2,
    (idPairs (pathEdges l)).map Prod.snd = (l.map fun p => p.id).drop 1
  | [] => rfl
  | [_] => rfl
  | a :: b :: rest => by
    show ((a.id, b.id) :: idPairs (pathEdges (b :: rest))).map Prod.snd = _
    rw [List.map_cons, idPairs_pathEdges_snd (b :: rest)]
    rfl

theorem pathEdges_conn_head : ∀ (l : List V2) (a p : V2), p ∈ a :: l →
    connOf (idPairs (pathEdges (a :: l))) a.id p.id
  | [], _, p, hp => by
    rw [List.mem_singleton] at hp
    subst hp
    exact connOf_refl _ _
  | b :: rest, a, p, hp => by
    rcases List.mem_cons.mp hp with rfl | hp
    · exact connOf_refl _ _
    · have h1 : connOf (idPairs (pathEdges (a :: b :: rest))) a.id b.id :=
        connOf_of_mem (List.mem_cons_self _ _)
      have h2 := pathEdges_conn_head rest b p hp
      have h2' : connOf (idPairs (pathEdges (a :: b :: rest))) b.id p.id :=
        connOf_mono (fun x hx => List.mem_cons_of_mem _ hx) h2
      exact connOf_trans h1 h2'

theorem storedPoints_map_id (coords : List (Int × Int)) :
    ((storedPoints coords).map fun p => p.id) = List.range coords.length := by
  apply List.ext_getElem
  · simp [storedPoints]
  · intro i h1 h2
    simp [storedPoints]

theorem idPairs_withWeights (es : List Edge) :
    idPairs (withWeights es) = idPairs es := by
  rw [idPairs, idPairs, withWeights, List.map_map]
  rfl

/-- C3 (amended): for at least three points that the source's collinearity
test accepts, with zero known edges, the returned air wires are exactly (a
permutation of) the consecutive pairs of the point list sorted by x — the
candidate-generation policy.  (This is the nearest-neighbour path along the
line only when the x coordinates strictly increase along it; vertical
collinear sets are a counterexample, see `C3_collinear_path_cex`.) -/
theorem C3_collinear_sorted_path
    (tri : List V2 → List Edge) (coords : List (Int × Int))
    (hn32 : coords.length ≤ 4294967296)
    (h3 : 3 ≤ coords.length)
    (_hcol : arePointsColinearR (storedPoints coords)) :
    (airWireIds true tri (builderOf coords [])).Perm
      (idPairs (pathEdges (sortByX (storedPoints coords)))) := by
  have hn : 1 ≤ coords.length := by omega
  have hσperm : (sortByX (storedPoints coords)).Perm (storedPoints coords) :=
    List.perm_insertionSort _ _
  have hσlen : (sortByX (storedPoints coords)).length = coords.length := by
    rw [hσperm.length_eq, storedPoints_length]
  have hcand : candidateEdges true tri (storedPoints coords) =
      pathEdges (sortByX (storedPoints coords)) :=
    candidateEdges_colinear tri _ (by rw [storedPoints_length]; omega)
  have hes : allEdges true tri (builderOf coords []) =
      withWeights (pathEdges (sortByX (storedPoints coords))) := by
    show (builderOf coords []).mEdges ++ _ = _
    rw [show (builderOf coords []).mEdges = [] from rfl, List.nil_append]
    show withWeights (candidateEdges true tri (storedPoints coords)) = _
    rw [hcand]
  have hval : ∀ e ∈ allEdges true tri (builderOf coords []),
      e.p1.id < coords.length ∧ e.p2.id < coords.length := by
    intro e he
    rw [hes] at he
    obtain ⟨_, e0, he0, hp1, hp2⟩ := withWeights_forall he
    obtain ⟨hm1, hm2, _⟩ := pathEdges_mem he0
    rw [hp1, hp2]
    exact ⟨mem_storedPoints_id (mem_sortByX.mp hm1),
      mem_storedPoints_id (mem_sortByX.mp hm2)⟩
  -- the path candidates connect every pair of ids
  have hid_mem : ∀ i, i < coords.length →
      ∃ p ∈ sortByX (storedPoints coords), p.id = i := by
    intro i hi
    have : i ∈ (sortByX (storedPoints coords)).map fun p => p.id := by
      rw [(hσperm.map _).mem_iff, storedPoints_map_id]
      exact List.mem_range.mpr hi
    obtain ⟨p, hp, hpi⟩ := List.mem_map.mp this
    exact ⟨p, hp, hpi⟩
  have hpathconn : ∀ i j, i < coords.length → j < coords.length →
      connOf (idPairs (pathEdges (sortByX (storedPoints coords)))) i j := by
    intro i j hi hj
    obtain ⟨p, hp, hpi⟩ := hid_mem i hi
    obtain ⟨q, hq, hqj⟩ := hid_mem j hj
    match hσ : sortByX (storedPoints coords), hp, hq with
    | a :: tail, hp, hq =>
      rw [← hpi, ← hqj]
      exact connOf_trans
        (connOf_symm (pathEdges_conn_head tail a p hp))
        (pathEdges_conn_head tail a q hq)
  have hconn : ∀ i j, i < coords.length → j < coords.length →
      connOf (idPairs (allEdges true tri (builderOf coords []))) i j := by
    intro i j hi hj
    rw [hes, idPairs_withWeights]
    exact hpathconn i j hi hj
  have hkval : ∀ ij ∈ ([] : List (Nat × Nat)),
      ij.1 < coords.length ∧ ij.2 < coords.length := by simp
  have hcount := buildRun_count hn hn32 hkval hval hconn
  rw [numComponents_nil] at hcount
  have hInvF := Inv_buildRun hn hn32 hval
  -- the emitted id pairs are distinct consecutive pairs of the sorted list
  have hsub : ∀ x ∈ airWireIds true tri (builderOf coords []),
      x ∈ idPairs (pathEdges (sortByX (storedPoints coords))) := by
    intro x hx
    obtain ⟨pq, hpq, hxEq⟩ := List.mem_map.mp hx
    obtain ⟨e, he, hpe, _, _, _⟩ := hInvF.origin pq hpq
    have heAll : e ∈ allEdges true tri (builderOf coords []) :=
      (procListOf_perm _).mem_iff.mp he
    rw [hes] at heAll
    obtain ⟨_, e0, he0, hp1, hp2⟩ := withWeights_forall heAll
    rw [← hxEq, hpe]
    show ((e.p1.id, e.p2.id) : Nat × Nat) ∈ _
    rw [hp1, hp2]
    exact List.mem_map.mpr ⟨e0, he0, rfl⟩
  have hnodupPath : (idPairs (pathEdges (sortByX (storedPoints coords)))).Nodup := by
    have hids : ((sortByX (storedPoints coords)).map fun p => p.id).Nodup := by
      rw [(hσperm.map _).nodup_iff, storedPoints_map_id]
      exact List.nodup_range _
    have hsnd := idPairs_pathEdges_snd (sortByX (storedPoints coords))
    have : ((idPairs (pathEdges (sortByX (storedPoints coords)))).map Prod.snd).Nodup := by
      rw [hsnd]
      exact (List.drop_sublist _ _).nodup hids
    exact this.of_map
  have hnodupMst : (airWireIds true tri (builderOf coords [])).Nodup :=
    hInvF.nodupMst
  have hlenMst : (airWireIds true tri (builderOf coords [])).length =
      coords.length - 1 := by
    show ((buildRun true tri (builderOf coords [])).1.mst.map _).length = _
    rw [List.length_map]
    omega
  have hlenPath : (idPairs (pathEdges (sortByX (storedPoints coords)))).length =
      coords.length - 1 := by
    rw [idPairs, List.length_map, pathEdges_length, hσlen]
  have hsubperm : (airWireIds true tri (builderOf coords [])).Subperm
      (idPairs (pathEdges (sortByX (storedPoints coords)))) :=
    List.subperm_of_subset hnodupMst hsub
  exact hsubperm.perm_of_length_le (by omega)

/-! ### Evaluating the direction angles on axis-aligned vectors -/

theorem atan2R_zero_pos {x : ℝ} (hx : 0 < x) : atan2R 0 x = 0 := by
  unfold atan2R
  rw [if_pos hx, zero_div, Real.arctan_zero]

theorem atan2R_pos_zero {y : ℝ} (hy : 0 < y) : atan2R y 0 = Real.pi / 2 := by
  unfold atan2R
  rw [if_neg (lt_irrefl 0), if_neg (lt_irrefl 0), if_pos hy]

theorem normHalf_of_nonneg {a : ℝ} (h : 0 ≤ a) : normHalf a = a := by
  unfold normHalf
  rw [if_neg (not_lt.mpr h)]

/-- Direction angle of a point strictly to the east on the same horizontal. -/
theorem dirAngle_east {p0 p : V2} (hx : p0.x < p.x) (hy : p.y = p0.y) :
    dirAngle p0 p = 0 := by
  unfold dirAngle
  rw [show p.y - p0.y = 0 by omega]
  rw [show ((0 : Int) : ℝ) = 0 from by norm_num,
    atan2R_zero_pos (by exact_mod_cast (by omega : (0 : Int) < p.x - p0.x)),
    normHalf_of_nonneg le_rfl]

/-- Direction angle of a point strictly to the north on the same vertical. -/
theorem dirAngle_north {p0 p : V2} (hx : p.x = p0.x) (hy : p0.y < p.y) :
    dirAngle p0 p = Real.pi / 2 := by
  unfold dirAngle
  rw [show p.x - p0.x = 0 by omega]
  rw [show ((0 : Int) : ℝ) = 0 from by norm_num,
    atan2R_pos_zero (by exact_mod_cast (by omega : (0 : Int) < p.y - p0.y)),
    normHalf_of_nonneg (by positivity)]

/-! ### Claim C5: the collinearity test's guard, tolerance, and scope -/

/-- Counterexample to C5 as stated: the participation threshold is
`10^6 nm² = (1 µm)²`, not "approximately 1 mm²" (`10^12 nm²`).  A point only
50 µm away from the first point — whose squared distance is 400 times
smaller than even 1 % of 1 mm² — already takes part in the angle check, and
its failing angle makes the whole test reject the set. -/
theorem C5_threshold_cex :
    colinearTakesPart ⟨0, 0, 0, 0⟩ ⟨0, 50000, 2, 0⟩ ∧
    ((0 - 0 : Int) ^ 2 + (50000 - 0) ^ 2) * 400 ≤ 10 ^ 12 ∧
    ¬ arePointsColinearR (storedPoints [(0, 0), (100000, 0), (0, 50000)]) := by
  refine ⟨by decide, by decide, ?_⟩
  have hsp : storedPoints [(0, 0), (100000, 0), (0, 50000)] =
      [⟨0, 0, 0, 0⟩, ⟨100000, 0, 1, 0⟩, ⟨0, 50000, 2, 0⟩] := by decide
  rw [hsp]
  intro hcol
  have h := hcol ⟨0, 50000, 2, 0⟩ (by decide) (by decide)
  rw [dirAngle_north (by decide) (by decide),
    @dirAngle_east ⟨0, 0, 0, 0⟩ ⟨100000, 0, 1, 0⟩ (by decide) (by decide)] at h
  rw [sub_zero, abs_of_nonneg (by positivity)] at h
  have hpi := Real.pi_gt_three
  linarith

/-- C5 (amended): in `arePointsColinear`, a point beyond the first two takes
part in the angle comparison exactly when its squared distance from the
first point exceeds `10^6` integer units (nanometre², i.e. `(1 µm)²`, not
≈ 1 mm²): if no point of the tail exceeds the guard the set is declared
collinear no matter where the points lie, and any tail point exceeding the
guard whose normalized direction angle differs from the reference angle by
more than `1e-6` radians makes the test reject — the test examines every
point of the list, not just the first three. -/
theorem C5_colinear_test (p0 p1 : V2) (rest : List V2) :
    ((∀ p ∈ rest, ¬ colinearTakesPart p0 p) →
      arePointsColinearR (p0 :: p1 :: rest)) ∧
    (∀ p ∈ rest, colinearTakesPart p0 p →
      1 / 1000000 < |dirAngle p0 p - dirAngle p0 p1| →
      ¬ arePointsColinearR (p0 :: p1 :: rest)) := by
  constructor
  · intro h p hp hpart
    exact absurd hpart (h p hp)
  · intro p hp hpart hgap hcol
    exact absurd (hcol p hp hpart) (not_le.mpr hgap)

/-- Witness for C5: three near-coincident points are accepted because no
tail point passes the guard, and the 90°-bent triple from the
counterexample is rejected through the angle check. -/
theorem C5_colinear_test_witness :
    arePointsColinearR [⟨0, 0, 0, 0⟩, ⟨1, 0, 1, 0⟩, ⟨2, 0, 2, 0⟩] ∧
    ¬ arePointsColinearR
      [⟨0, 0, 0, 0⟩, ⟨100000, 0, 1, 0⟩, ⟨0, 50000, 2, 0⟩] := by
  constructor
  · exact (C5_colinear_test ⟨0, 0, 0, 0⟩ ⟨1, 0, 1, 0⟩ [⟨2, 0, 2, 0⟩]).1
      (by decide)
  · refine (C5_colinear_test ⟨0, 0, 0, 0⟩ ⟨100000, 0, 1, 0⟩ [⟨0, 50000, 2, 0⟩]).2
      ⟨0, 50000, 2, 0⟩ (by decide) (by decide) ?_
    rw [dirAngle_north (by decide) (by decide),
      @dirAngle_east ⟨0, 0, 0, 0⟩ ⟨100000, 0, 1, 0⟩ (by decide) (by decide)]
    rw [sub_zero, abs_of_nonneg (by positivity)]
    have hpi := Real.pi_gt_three
    linarith

/-! ### Claim C3: the collinear branch sorts by one axis only -/

/-- The vertical triple `(0,0), (0,5000), (0,2500)` is collinear: both tail
points lie due north of the first, so every direction angle is `π/2`. -/
theorem colinearR_vertical_triple :
    arePointsColinearR (storedPoints [(0, 0), (0, 5000), (0, 2500)]) := by
  have hsp : storedPoints [(0, 0), (0, 5000), (0, 2500)] =
      [⟨0, 0, 0, 0⟩, ⟨0, 5000, 1, 0⟩, ⟨0, 2500, 2, 0⟩] := by decide
  rw [hsp]
  show ∀ p ∈ [(⟨0, 2500, 2, 0⟩ : V2)],
    colinearTakesPart ⟨0, 0, 0, 0⟩ p →
    |dirAngle ⟨0, 0, 0, 0⟩ p - dirAngle ⟨0, 0, 0, 0⟩ ⟨0, 5000, 1, 0⟩| ≤ 1 / 1000000
  intro p hp _
  rw [List.mem_singleton] at hp
  subst hp
  rw [@dirAngle_north ⟨0, 0, 0, 0⟩ ⟨0, 2500, 2, 0⟩ (by decide) (by decide),
    @dirAngle_north ⟨0, 0, 0, 0⟩ ⟨0, 5000, 1, 0⟩ (by decide) (by decide),
    sub_self, abs_zero]
  norm_num

/-- Counterexample to C3 as stated: the collinear branch sorts by the x
coordinate only, so on a vertical line (all x equal) the insertion order
survives the sort and consecutive-pair chaining does not follow the line.
For `(0,0), (0,5000), (0,2500)` — collinear, no known edges — the output
contains the wire `(0,0)–(0,5000)` even though `(0,2500)` is strictly
nearer to `(0,0)`, and contains no wire between `(0,0)` and its nearest
neighbor `(0,2500)`: the result is not the nearest-neighbor path along the
line. -/
theorem C3_collinear_path_cex :
    arePointsColinearR (storedPoints [(0, 0), (0, 5000), (0, 2500)]) ∧
    buildAirWires true (fun _ => []) (builderOf [(0, 0), (0, 5000), (0, 2500)] []) =
      [((0, 5000), (0, 2500)), ((0, 0), (0, 5000))] ∧
    ((0 : Int) - 0) ^ 2 + ((2500 : Int) - 0) ^ 2 <
      ((0 : Int) - 0) ^ 2 + ((5000 : Int) - 0) ^ 2 ∧
    ((0, 0), (0, 2500)) ∉
      buildAirWires true (fun _ => []) (builderOf [(0, 0), (0, 5000), (0, 2500)] []) ∧
    ((0, 2500), (0, 0)) ∉
      buildAirWires true (fun _ => []) (builderOf [(0, 0), (0, 5000), (0, 2500)] []) :=
  ⟨colinearR_vertical_triple, by decide, by decide, by decide, by decide⟩

/-- Witness for C3 (amended): the vertical collinear triple satisfies the
hypotheses, and its air wires are a permutation of the consecutive pairs of
the x-sorted point list. -/
theorem C3_collinear_sorted_path_witness :
    (airWireIds true (fun _ => []) (builderOf [(0, 0), (0, 5000), (0, 2500)] [])).Perm
      (idPairs (pathEdges (sortByX (storedPoints [(0, 0), (0, 5000), (0, 2500)])))) :=
  C3_collinear_sorted_path (fun _ => []) [(0, 0), (0, 5000), (0, 2500)]
    (by decide) (by decide) colinearR_vertical_triple

/-! ### Claim C6: only candidate edges are ever emitted -/

/-- C6: every pair of the returned air-wire list originates from a weighted
candidate edge (weight = squared distance, hence nonnegative), never from a
known edge (whose weight is the sentinel `-1`): merges through known edges
emit nothing. -/
theorem C6_candidate_origin (colinear : Bool) (tri : List V2 → List Edge)
    (coords : List (Int × Int)) (knowns : List (Nat × Nat))
    (hn32 : coords.length ≤ 4294967296)
    (hkval : ∀ ij ∈ knowns, ij.1 < coords.length ∧ ij.2 < coords.length)
    (htri : ∀ e ∈ tri (storedPoints coords),
      e.p1 ∈ storedPoints coords ∧ e.p2 ∈ storedPoints coords) :
    ∀ pq ∈ buildAirWires colinear tri (builderOf coords knowns),
      ∃ e ∈ withWeights (candidateEdges colinear tri (storedPoints coords)),
        pq = ((e.p1.x, e.p1.y), (e.p2.x, e.p2.y)) ∧ 0 ≤ e.weight := by
  intro pq hpq
  by_cases hn : 1 ≤ coords.length
  · have hvalAll := @allEdges_valid colinear tri coords knowns hkval htri
    have hInv := Inv_buildRun hn hn32 hvalAll
    obtain ⟨pq0, hpq0, hEq⟩ := List.mem_map.mp hpq
    obtain ⟨e, he, hpe, hw, _, _⟩ := hInv.origin pq0 hpq0
    have he' : e ∈ allEdges colinear tri (builderOf coords knowns) :=
      (procListOf_perm _).mem_iff.mp he
    rcases List.mem_append.mp he' with hk | hc
    · have := knownEdge_weight coords knowns e hk
      omega
    · exact ⟨e, hc, by rw [← hEq, hpe], hw⟩
  · have hc0 : coords = [] := List.length_eq_zero.mp (by omega)
    subst hc0
    have hk0 : knowns = [] := by
      cases knowns with
      | nil => rfl
      | cons ij tl =>
        have := (hkval ij (List.mem_cons_self _ _)).1
        simp at this
    subst hk0
    exact absurd hpq (List.not_mem_nil pq)

/-- Witness for C6: for the two-point builder the single air wire comes from
the direct candidate edge. -/
theorem C6_candidate_origin_witness :
    ∃ e ∈ withWeights (candidateEdges false (fun _ => [])
        (storedPoints [(0, 0), (3, 4)])),
      (((0 : Int), (0 : Int)), ((3 : Int), (4 : Int))) =
        ((e.p1.x, e.p1.y), (e.p2.x, e.p2.y)) ∧ 0 ≤ e.weight :=
  C6_candidate_origin false (fun _ => []) [(0, 0), (3, 4)] []
    (by decide) (by decide) (by decide) ((0, 0), (3, 4)) (by decide)

/-! ### Claim C7: tags are the connectivity partition at every step -/

/-- An air wire that appears in the state after one more loop iteration but
was not there before joins two points that carried different tags at that
moment: emission happens only in the merging branch of `kstep`, which is
guarded by the tags differing. -/
theorem gstep_mst_new {s : KS} {e : Edge} {pq : V2 × V2}
    (h1 : pq ∈ (gstep s e).mst) (h2 : pq ∉ s.mst) :
    ¬ tagRel s pq.1.id pq.2.id := by
  unfold gstep at h1
  by_cases hg : s.mstSize < s.expectedSize
  · rw [if_pos hg] at h1
    rcases kstep_cases s e with ⟨heq, hEq⟩ | ⟨hne, hcond, hEq⟩ | ⟨hne, hrf, hwneg, hEq⟩
    · rw [hEq] at h1
      exact absurd h1 h2
    · rw [hEq] at h1
      rcases List.mem_append.mp h1 with h | h
      · exact absurd h h2
      · rw [List.mem_singleton] at h
        subst h
        exact hne
    · rw [hEq] at h1
      exact absurd h1 h2
  · rw [if_neg hg] at h1
    exact absurd h1 h2

/-- C7: after `k` loop iterations, two point ids carry the same component
tag exactly when they are connected by the known (negative-weight) edges
processed so far together with the air wires emitted so far; and every air
wire is emitted at a moment when its endpoints carry different tags. -/
theorem C7_tag_partition (colinear : Bool) (tri : List V2 → List Edge)
    (coords : List (Int × Int)) (knowns : List (Nat × Nat))
    (hn : 1 ≤ coords.length) (hn32 : coords.length ≤ 4294967296)
    (hkval : ∀ ij ∈ knowns, ij.1 < coords.length ∧ ij.2 < coords.length)
    (htri : ∀ e ∈ tri (storedPoints coords),
      e.p1 ∈ storedPoints coords ∧ e.p2 ∈ storedPoints coords) :
    (∀ k i j, i < coords.length → j < coords.length →
      (tagRel (stateAt colinear tri (builderOf coords knowns) k) i j ↔
        connOf
          (idPairs
            (((procListOf (allEdges colinear tri
                (builderOf coords knowns))).take k).filter
              fun e => decide (e.weight < 0)) ++
            mstIds (stateAt colinear tri (builderOf coords knowns) k)) i j)) ∧
    (∀ k pq,
      pq ∈ (stateAt colinear tri (builderOf coords knowns) (k + 1)).mst →
      pq ∉ (stateAt colinear tri (builderOf coords knowns) k).mst →
      ¬ tagRel (stateAt colinear tri (builderOf coords knowns) k)
        pq.1.id pq.2.id) := by
  have hvalAll := @allEdges_valid colinear tri coords knowns hkval htri
  have hval : ∀ e ∈ procListOf (allEdges colinear tri (builderOf coords knowns)),
      e.p1.id < coords.length ∧ e.p2.id < coords.length := fun e he =>
    hvalAll e ((procListOf_perm _).mem_iff.mp he)
  have hInv := Inv_foldl hn hn32 (storedPoints coords) (storedPoints_length coords)
    (procListOf (allEdges colinear tri (builderOf coords knowns))) hval
    (procListOf_sorted _)
  constructor
  · intro k i j hi hj
    have h1 := (hInv k).conn i j hi hj
    have h2 := (hInv k).relEq i j
    exact ⟨fun ht => h2.mp (h1.mp ht), fun hc => h1.mpr (h2.mpr hc)⟩
  · intro k pq h1 h2
    by_cases hk : k < (procListOf (allEdges colinear tri
        (builderOf coords knowns))).length
    · have htake : (procListOf (allEdges colinear tri
          (builderOf coords knowns))).take (k + 1) =
          (procListOf (allEdges colinear tri
            (builderOf coords knowns))).take k ++
            [(procListOf (allEdges colinear tri (builderOf coords knowns)))[k]] := by
        rw [List.take_succ, List.getElem?_eq_getElem hk]
        rfl
      have hs : stateAt colinear tri (builderOf coords knowns) (k + 1) =
          gstep (stateAt colinear tri (builderOf coords knowns) k)
            ((procListOf (allEdges colinear tri (builderOf coords knowns)))[k]) := by
        show ((procListOf (allEdges colinear tri
            (builderOf coords knowns))).take (k + 1)).foldl gstep _ = _
        rw [htake, List.foldl_append]
        rfl
      rw [hs] at h1
      exact gstep_mst_new h1 h2
    · have hs : stateAt colinear tri (builderOf coords knowns) (k + 1) =
          stateAt colinear tri (builderOf coords knowns) k := by
        show ((procListOf (allEdges colinear tri
            (builderOf coords knowns))).take (k + 1)).foldl gstep _ =
          ((procListOf (allEdges colinear tri
            (builderOf coords knowns))).take k).foldl gstep _
        rw [List.take_of_length_le (by omega), List.take_of_length_le (by omega)]
      rw [hs] at h1
      exact absurd h1 h2

/-- Witness for C7: on the two-point builder, after one iteration the two
ids share a tag exactly when connected by what has been processed. -/
theorem C7_tag_partition_witness :
    tagRel (stateAt false (fun _ => []) (builderOf [(0, 0), (3, 4)] []) 1) 0 1 ↔
      connOf
        (idPairs
          (((procListOf (allEdges false (fun _ => [])
              (builderOf [(0, 0), (3, 4)] []))).take 1).filter
            fun e => decide (e.weight < 0)) ++
          mstIds (stateAt false (fun _ => []) (builderOf [(0, 0), (3, 4)] []) 1))
        0 1 :=
  (C7_tag_partition false (fun _ => []) [(0, 0), (3, 4)] []
    (by decide) (by decide) (by decide) (by decide)).1 1 0 1 (by decide) (by decide)

/-! ### Claim C10: the builder instance is single-use -/

theorem setTagAt_map_proj (ps : List V2) (i t : Nat) :
    (setTagAt ps i t).map (fun p => (p.x, p.y, p.id)) =
      ps.map fun p => (p.x, p.y, p.id) := by
  induction ps generalizing i with
  | nil => rfl
  | cons p ps ih =>
    cases i with
    | zero => rfl
    | succ i =>
      show (p.x, p.y, p.id) :: (setTagAt ps i t).map _ = _
      rw [ih]
      rfl

theorem retagPoints_map_proj (members : List Nat) (ps : List V2) (t : Nat) :
    (retagPoints ps members t).map (fun p => (p.x, p.y, p.id)) =
      ps.map fun p => (p.x, p.y, p.id) := by
  induction members generalizing ps with
  | nil => rfl
  | cons m ms ih =>
    show (retagPoints (setTagAt ps m t) ms t).map _ = _
    rw [ih (setTagAt ps m t), setTagAt_map_proj]

/-- One Kruskal step never changes a stored point's coordinates or id: the
only write to the point vector is the retagging of a merged group. -/
theorem kstep_points_proj (s : KS) (e : Edge) :
    (kstep s e).points.map (fun p => (p.x, p.y, p.id)) =
      s.points.map fun p => (p.x, p.y, p.id) := by
  rcases kstep_cases s e with ⟨_, hEq⟩ | ⟨_, _, hEq⟩ | ⟨_, _, _, hEq⟩
  · rw [hEq]
  · rw [hEq]
  · rw [hEq]
    exact retagPoints_map_proj _ _ _

theorem gstep_points_proj (s : KS) (e : Edge) :
    (gstep s e).points.map (fun p => (p.x, p.y, p.id)) =
      s.points.map fun p => (p.x, p.y, p.id) := by
  unfold gstep
  by_cases hg : s.mstSize < s.expectedSize
  · rw [if_pos hg, kstep_points_proj]
  · rw [if_neg hg]

theorem foldl_points_proj (L : List Edge) (s : KS) :
    (L.foldl gstep s).points.map (fun p => (p.x, p.y, p.id)) =
      s.points.map fun p => (p.x, p.y, p.id) := by
  induction L generalizing s with
  | nil => rfl
  | cons e rest ih =>
    rw [List.foldl_cons, ih, gstep_points_proj]

theorem initKS_points_proj (ps : List V2) :
    (initKS ps).points.map (fun p => (p.x, p.y, p.id)) =
      ps.map fun p => (p.x, p.y, p.id) := by
  apply List.ext_getElem
  · simp [initKS]
  · intro i h1 h2
    simp [initKS]

/-- The loop pops edges off the back of the sorted vector and leaves the
unprocessed front intact: its leftover is a suffix of the processing list. -/
theorem kloop_snd_drop (L : List Edge) (s : KS) :
    ∃ m, (kloop s L).2 = L.drop m := by
  induction L generalizing s with
  | nil => exact ⟨0, rfl⟩
  | cons e rest ih =>
    by_cases hg : s.mstSize < s.expectedSize
    · obtain ⟨m, hm⟩ := ih (kstep s e)
      refine ⟨m + 1, ?_⟩
      rw [kloop, if_pos hg]
      exact hm
    · refine ⟨0, ?_⟩
      rw [kloop, if_neg hg]
      rfl

/-- C10: `buildAirWires` preserves every registered point's coordinates and
id (only the internal component tags are rewritten), but it mutates the
stored edge list: after a build, `mEdges` holds a take-prefix of the full
weighted edge list sorted descending (candidates were appended, processed
edges popped off the back, unprocessed ones left behind).  Consequently a
second build on the same instance need not return the first build's list:
on three collinear points with one known edge the first build returns one
air wire and the second returns two. -/
theorem C10_single_use (colinear : Bool) (tri : List V2 → List Edge)
    (coords : List (Int × Int)) (knowns : List (Nat × Nat)) :
    ((buildRest colinear tri (builderOf coords knowns)).mPoints.map
        fun p => (p.x, p.y, p.id)) =
      ((builderOf coords knowns).mPoints.map fun p => (p.x, p.y, p.id)) ∧
    (∃ k, (buildRest colinear tri (builderOf coords knowns)).mEdges =
      (sortEdgesDesc (allEdges colinear tri (builderOf coords knowns))).take k) ∧
    buildAirWires true (fun _ => [])
        (builderOf [(0, 0), (2000, 0), (4000, 0)] [(0, 1)]) =
      [((2000, 0), (4000, 0))] ∧
    buildAirWires true (fun _ => [])
        (buildRest true (fun _ => [])
          (builderOf [(0, 0), (2000, 0), (4000, 0)] [(0, 1)])) =
      [((2000, 0), (4000, 0)), ((0, 0), (2000, 0))] ∧
    buildAirWires true (fun _ => [])
        (buildRest true (fun _ => [])
          (builderOf [(0, 0), (2000, 0), (4000, 0)] [(0, 1)])) ≠
      buildAirWires true (fun _ => [])
        (builderOf [(0, 0), (2000, 0), (4000, 0)] [(0, 1)]) := by
  refine ⟨?_, ?_, by decide, by decide, by decide⟩
  · show ((buildRun colinear tri (builderOf coords knowns)).1.points.map _) = _
    have h1 : (buildRun colinear tri (builderOf coords knowns)).1 =
        (procListOf (allEdges colinear tri (builderOf coords knowns))).foldl
          gstep (initKS (builderOf coords knowns).mPoints) :=
      kloop_fst_eq_foldl _ _
    rw [h1, foldl_points_proj, initKS_points_proj]
  · obtain ⟨m, hm⟩ :=
      kloop_snd_drop (procListOf (allEdges colinear tri (builderOf coords knowns)))
        (initKS (builderOf coords knowns).mPoints)
    refine ⟨(sortEdgesDesc (allEdges colinear tri
      (builderOf coords knowns))).length - m, ?_⟩
    show (buildRun colinear tri (builderOf coords knowns)).2.reverse = _
    have hm' : (buildRun colinear tri (builderOf coords knowns)).2 =
        (procListOf (allEdges colinear tri (builderOf coords knowns))).drop m := hm
    rw [hm']
    show ((sortEdgesDesc (allEdges colinear tri
      (builderOf coords knowns))).reverse.drop m).reverse = _
    rw [List.drop_reverse, List.reverse_reverse]

/-! ### Claim C9: redundant known edges are harmless -/

theorem orderedInsert_min_last (x : Edge) :
    ∀ l : List Edge, (∀ y ∈ l, x.weight < y.weight) →
      List.orderedInsert (fun u v => v.weight ≤ u.weight) x l = l ++ [x] := by
  intro l
  induction l with
  | nil => intro _; rfl
  | cons b l' ih =>
    intro h
    have hb : ¬ (b.weight ≤ x.weight) := by
      have := h b (List.mem_cons_self _ _)
      omega
    rw [List.orderedInsert, if_neg hb, ih fun y hy => h y (List.mem_cons_of_mem _ hy)]
    rfl

theorem orderedInsert_append_sing (a x : Edge) (hax : x.weight ≤ a.weight) :
    ∀ l : List Edge,
      List.orderedInsert (fun u v => v.weight ≤ u.weight) a (l ++ [x]) =
        List.orderedInsert (fun u v => v.weight ≤ u.weight) a l ++ [x] := by
  intro l
  induction l with
  | nil =>
    show List.orderedInsert (fun u v => v.weight ≤ u.weight) a [x] = [a] ++ [x]
    rw [List.orderedInsert, if_pos hax]
    rfl
  | cons b l' ih =>
    show List.orderedInsert (fun u v => v.weight ≤ u.weight) a (b :: (l' ++ [x])) = _
    rw [List.orderedInsert, List.orderedInsert]
    by_cases hb : b.weight ≤ a.weight
    · rw [if_pos hb, if_pos hb]
      rfl
    · rw [if_neg hb, if_neg hb, ih]
      rfl

/-- Stability of the descending sort around a minimal last element: an edge
of minimal weight appended after the known block (and before the strictly
heavier candidates) ends up exactly at the back of the sorted vector. -/
theorem sortEdgesDesc_append_min (x : Edge) :
    ∀ A W : List Edge, (∀ y ∈ A, x.weight ≤ y.weight) →
      (∀ y ∈ W, x.weight < y.weight) →
      sortEdgesDesc (A ++ [x] ++ W) = sortEdgesDesc (A ++ W) ++ [x] := by
  intro A
  induction A with
  | nil =>
    intro W hA hW
    show List.orderedInsert (fun u v => v.weight ≤ u.weight) x (sortEdgesDesc W) =
      sortEdgesDesc W ++ [x]
    exact orderedInsert_min_last x _
      fun y hy => hW y ((List.perm_insertionSort _ W).subset hy)
  | cons a A' ih =>
    intro W hA hW
    show List.orderedInsert (fun u v => v.weight ≤ u.weight) a
        (sortEdgesDesc (A' ++ [x] ++ W)) =
      List.orderedInsert (fun u v => v.weight ≤ u.weight) a
        (sortEdgesDesc (A' ++ W)) ++ [x]
    rw [ih W (fun y hy => hA y (List.mem_cons_of_mem _ hy)) hW]
    exact orderedInsert_append_sing a x (hA a (List.mem_cons_self _ _)) _

/-- The merged tag partition, phrased through `tagRel` only: after merging
the two components of an edge's endpoints, two ids are related exactly when
they were related before, or one sat with the first endpoint and the other
with the second. -/
theorem tagRel_kstep_merge {n : Nat} {s : KS} (hWF : WF n s) {e : Edge}
    (h2 : e.p2.id < n) {i j : Nat} (hi : i < n) (hj : j < n) :
    ((retag s.tags (s.cycles.getD (tagAt s e.p2.id) []) (tagAt s e.p1.id)).getD i 0 =
      (retag s.tags (s.cycles.getD (tagAt s e.p2.id) []) (tagAt s e.p1.id)).getD j 0) ↔
      (tagRel s i j ∨ (tagRel s i e.p1.id ∧ tagRel s j e.p2.id) ∨
        (tagRel s i e.p2.id ∧ tagRel s j e.p1.id)) :=
  tagRel_merge_iff hWF (hWF.tags_lt _ h2) hi hj

/-- Bisimulation relation between two Kruskal states: identical partitions
and identical observable counters and output, both well-formed. Point tags
and the concrete representative chosen per component may differ. -/
structure Sim (n : Nat) (s t : KS) : Prop where
  rel : ∀ i j, i < n → j < n → (tagRel s i j ↔ tagRel t i j)
  exp : s.expectedSize = t.expectedSize
  msz : s.mstSize = t.mstSize
  rat : s.ratsnest = t.ratsnest
  mst : s.mst = t.mst
  wfs : WF n s
  wft : WF n t

theorem Sim_kstep {n : Nat} {s t : KS} (h : Sim n s t) (e : Edge)
    (h1 : e.p1.id < n) (h2 : e.p2.id < n) :
    Sim n (kstep s e) (kstep t e) := by
  have hwfs' := WF_kstep h.wfs e h1 h2
  have hwft' := WF_kstep h.wft e h1 h2
  have hbr := h.rel e.p1.id e.p2.id h1 h2
  have hrelmap : ∀ i j, i < n → j < n →
      ((tagRel s i j ∨ (tagRel s i e.p1.id ∧ tagRel s j e.p2.id) ∨
        (tagRel s i e.p2.id ∧ tagRel s j e.p1.id)) ↔
       (tagRel t i j ∨ (tagRel t i e.p1.id ∧ tagRel t j e.p2.id) ∨
        (tagRel t i e.p2.id ∧ tagRel t j e.p1.id))) := fun i j hi hj =>
    or_congr (h.rel i j hi hj)
      (or_congr (and_congr (h.rel i e.p1.id hi h1) (h.rel j e.p2.id hj h2))
        (and_congr (h.rel i e.p2.id hi h2) (h.rel j e.p1.id hj h1)))
  rcases kstep_cases s e with ⟨hseq, hsEq⟩ | ⟨hsne, hscond, hsEq⟩ |
      ⟨hsne, hsrf, hswneg, hsEq⟩ <;>
    rcases kstep_cases t e with ⟨hteq, htEq⟩ | ⟨htne, htcond, htEq⟩ |
      ⟨htne, htrf, htwneg, htEq⟩
  · rw [hsEq, htEq]
    exact h
  · exact absurd (hbr.mp hseq) htne
  · exact absurd (hbr.mp hseq) htne
  · exact absurd (hbr.mpr hteq) hsne
  · refine ⟨?_, ?_, ?_, ?_, ?_, hwfs', hwft'⟩
    · intro i j hi hj
      rw [hsEq, htEq]
      exact ((tagRel_kstep_merge h.wfs h2 hi hj).trans (hrelmap i j hi hj)).trans
        (tagRel_kstep_merge h.wft h2 hi hj).symm
    · rw [hsEq, htEq]
      exact h.exp
    · rw [hsEq, htEq]
      show s.mstSize + 1 = t.mstSize + 1
      rw [h.msz]
    · rw [hsEq, htEq]
    · rw [hsEq, htEq]
      show s.mst ++ _ = t.mst ++ _
      rw [h.mst]
  · rcases hscond with hsr | hsw
    · rw [h.rat] at hsr
      rw [hsr] at htrf
      simp at htrf
    · omega
  · exact absurd (hbr.mpr hteq) hsne
  · rcases htcond with htr | htw
    · rw [← h.rat] at htr
      rw [htr] at hsrf
      simp at hsrf
    · omega
  · refine ⟨?_, ?_, ?_, ?_, ?_, hwfs', hwft'⟩
    · intro i j hi hj
      rw [hsEq, htEq]
      exact ((tagRel_kstep_merge h.wfs h2 hi hj).trans (hrelmap i j hi hj)).trans
        (tagRel_kstep_merge h.wft h2 hi hj).symm
    · rw [hsEq, htEq]
      show s.expectedSize - 1 = t.expectedSize - 1
      rw [h.exp]
    · rw [hsEq, htEq]
      exact h.msz
    · rw [hsEq, htEq]
    · rw [hsEq, htEq]
      exact h.mst

theorem Sim_gstep {n : Nat} {s t : KS} (h : Sim n s t) (e : Edge)
    (h1 : e.p1.id < n) (h2 : e.p2.id < n) :
    Sim n (gstep s e) (gstep t e) := by
  unfold gstep
  by_cases hg : t.mstSize < t.expectedSize
  · rw [if_pos hg, if_pos (by rw [h.msz, h.exp]; exact hg)]
    exact Sim_kstep h e h1 h2
  · rw [if_neg hg, if_neg (by rw [h.msz, h.exp]; exact hg)]
    exact h

theorem Sim_foldl {n : Nat} (C : List Edge)
    (hval : ∀ e ∈ C, e.p1.id < n ∧ e.p2.id < n) :
    ∀ {s t : KS}, Sim n s t → Sim n (C.foldl gstep s) (C.foldl gstep t) := by
  induction C with
  | nil => intro s t h; exact h
  | cons e C' ih =>
    intro s t h
    rw [List.foldl_cons, List.foldl_cons]
    exact ih (fun y hy => hval y (List.mem_cons_of_mem _ hy))
      (Sim_gstep h e (hval e (List.mem_cons_self _ _)).1
        (hval e (List.mem_cons_self _ _)).2)

/-- C9: appending a self-edge `addEdge(i, i)`, a duplicate of an existing
known edge, or any known edge between two points already connected by the
known edges, leaves the air-wire list returned by `buildAirWires` unchanged
(the redundant edge is absorbed as a no-op union and is never emitted).
The hypothesis `connOf knowns d.1 d.2` covers all three (it is reflexive,
so a self-edge satisfies it for free). -/
theorem C9_duplicate_edges (colinear : Bool) (tri : List V2 → List Edge)
    (coords : List (Int × Int)) (knowns : List (Nat × Nat)) (d : Nat × Nat)
    (hn32 : coords.length ≤ 4294967296)
    (hkval : ∀ ij ∈ knowns, ij.1 < coords.length ∧ ij.2 < coords.length)
    (hd1 : d.1 < coords.length) (hd2 : d.2 < coords.length)
    (htri : ∀ e ∈ tri (storedPoints coords),
      e.p1 ∈ storedPoints coords ∧ e.p2 ∈ storedPoints coords)
    (hd : connOf knowns d.1 d.2) :
    buildAirWires colinear tri (builderOf coords (knowns ++ [d])) =
      buildAirWires colinear tri (builderOf coords knowns) := by
  have hn : 1 ≤ coords.length := by omega
  set A := (builderOf coords knowns).mEdges with hA_def
  set W := withWeights (candidateEdges colinear tri (storedPoints coords)) with hW_def
  set x := knownEdgeOf (storedPoints coords) d with hx_def
  have hallext : allEdges colinear tri (builderOf coords (knowns ++ [d])) =
      A ++ [x] ++ W := by
    show (knowns ++ [d]).map (knownEdgeOf (storedPoints coords)) ++ W = _
    rw [List.map_append]
    rfl
  have hallbase : allEdges colinear tri (builderOf coords knowns) = A ++ W := rfl
  have hsand : sortEdgesDesc (A ++ [x] ++ W) = sortEdgesDesc (A ++ W) ++ [x] := by
    refine sortEdgesDesc_append_min x A W ?_ ?_
    · intro y hy
      have := knownEdge_weight coords knowns y hy
      show (-1 : Int) ≤ y.weight
      omega
    · intro y hy
      have := (withWeights_forall hy).1
      show (-1 : Int) < y.weight
      omega
  set L := procListOf (allEdges colinear tri (builderOf coords knowns)) with hL_def
  have hproc : procListOf (allEdges colinear tri (builderOf coords (knowns ++ [d]))) =
      x :: L := by
    show (sortEdgesDesc (allEdges colinear tri
        (builderOf coords (knowns ++ [d])))).reverse = _
    rw [hallext, hsand, List.reverse_append]
    rfl
  have hvalAllb := @allEdges_valid colinear tri coords knowns hkval htri
  have hkval' : ∀ ij ∈ knowns ++ [d], ij.1 < coords.length ∧ ij.2 < coords.length := by
    intro ij hij
    rcases List.mem_append.mp hij with hm | hm
    · exact hkval ij hm
    · rw [List.mem_singleton] at hm
      subst hm
      exact ⟨hd1, hd2⟩
  have hvalAlle := @allEdges_valid colinear tri coords (knowns ++ [d]) hkval' htri
  have hvalL : ∀ e ∈ L, e.p1.id < coords.length ∧ e.p2.id < coords.length :=
    fun e he => hvalAllb e ((procListOf_perm _).mem_iff.mp he)
  have hvalxL : ∀ e ∈ x :: L, e.p1.id < coords.length ∧ e.p2.id < coords.length := by
    intro e he
    rw [← hproc] at he
    exact hvalAlle e ((procListOf_perm _).mem_iff.mp he)
  have hsortL : L.Pairwise (fun a b => a.weight ≤ b.weight) := procListOf_sorted _
  have hsortxL : (x :: L).Pairwise (fun a b => a.weight ≤ b.weight) := by
    rw [← hproc]
    exact procListOf_sorted _
  obtain ⟨hsplit, hKneg, hCpos⟩ := sorted_sign_split L hsortL
  set K := L.takeWhile (fun e => decide (e.weight < 0)) with hK_def
  set C := L.dropWhile (fun e => decide (e.weight < 0)) with hC_def
  have hsplitx : x :: L = (x :: K) ++ C := by
    rw [List.cons_append, ← hsplit]
  have hInvb := Inv_foldl hn hn32 (storedPoints coords) (storedPoints_length coords)
    L hvalL hsortL
  have hInve := Inv_foldl hn hn32 (storedPoints coords) (storedPoints_length coords)
    (x :: L) hvalxL hsortxL
  have htakeK : L.take K.length = K := by
    rw [hsplit]
    exact List.take_left _ _
  have hInvK := hInvb K.length
  rw [htakeK] at hInvK
  set sK := K.foldl gstep (initKS (storedPoints coords)) with hsK_def
  have htakeK' : (x :: L).take (x :: K).length = x :: K := by
    show x :: L.take K.length = x :: K
    rw [htakeK]
  have hInvK' := hInve (x :: K).length
  rw [htakeK'] at hInvK'
  set sK' := (x :: K).foldl gstep (initKS (storedPoints coords)) with hsK'_def
  have hxid : (x.p1.id, x.p2.id) = (d.1, d.2) := by
    show (((storedPoints coords).getD d.1 default).id,
      ((storedPoints coords).getD d.2 default).id) = _
    rw [storedPoints_getD_id coords hd1, storedPoints_getD_id coords hd2]
  have hKperm : K.Perm (builderOf coords knowns).mEdges := by
    have h1 : L.filter (fun e => decide (e.weight < 0)) = K := by
      conv_lhs => rw [hsplit]
      rw [List.filter_append, List.filter_eq_self.mpr (by
          intro e he
          simpa using hKneg e he),
        List.filter_eq_nil_iff.mpr (by
          intro e he
          have := hCpos e he
          simpa using by omega)]
      simp
    have h2 : (allEdges colinear tri (builderOf coords knowns)).filter
        (fun e => decide (e.weight < 0)) = (builderOf coords knowns).mEdges := by
      rw [allEdges, List.filter_append, List.filter_eq_self.mpr (by
          intro e he
          have := knownEdge_weight coords knowns e he
          simpa using by omega),
        List.filter_eq_nil_iff.mpr (by
          intro e he
          have := (withWeights_forall he).1
          simpa using by omega)]
      simp
    rw [← h1, ← h2]
    exact (procListOf_perm _).filter _
  have hconnK : ∀ i j, connOf (idPairs K) i j ↔ connOf knowns i j := by
    intro i j
    have hp : (idPairs K).Perm (idPairs (builderOf coords knowns).mEdges) :=
      hKperm.map _
    rw [connOf_perm hp i j, idPairs_knownEdges coords knowns hkval]
  have hconnxK : ∀ i j, connOf (idPairs (x :: K)) i j ↔ connOf (idPairs K) i j := by
    intro i j
    have hperm : (idPairs (x :: K)).Perm (idPairs K ++ [(d.1, d.2)]) := by
      show ((x.p1.id, x.p2.id) :: idPairs K).Perm _
      rw [hxid]
      exact (List.perm_append_singleton _ _).symm
    rw [connOf_perm hperm i j]
    exact connOf_add_redundant ((hconnK d.1 d.2).mpr hd) i j
  have hrelKK : ∀ i j, i < coords.length → j < coords.length →
      (tagRel sK' i j ↔ tagRel sK i j) := fun i j hi hj =>
    ((hInvK'.conn i j hi hj).trans (hconnxK i j)).trans (hInvK.conn i j hi hj).symm
  have hmstK : sK.mst = [] := by
    rw [List.eq_nil_iff_forall_not_mem]
    intro pq hpq
    obtain ⟨e, he, _, hw, _, _⟩ := hInvK.origin pq hpq
    exact absurd hw (by have := hKneg e he; omega)
  have hmstK' : sK'.mst = [] := by
    rw [List.eq_nil_iff_forall_not_mem]
    intro pq hpq
    obtain ⟨e, he, _, hw, _, _⟩ := hInvK'.origin pq hpq
    rcases List.mem_cons.mp he with hm | hm
    · subst hm
      exact absurd hw (by show ¬ ((0 : Int) ≤ -1); omega)
    · exact absurd hw (by have := hKneg e hm; omega)
  have hszK : sK.mstSize = 0 := by
    rw [hInvK.size, hmstK]
    rfl
  have hszK' : sK'.mstSize = 0 := by
    rw [hInvK'.size, hmstK']
    rfl
  have hratK : sK.ratsnest = false := by
    cases hr : sK.ratsnest
    · rfl
    · obtain ⟨e, he, hw⟩ := hInvK.ratlatch hr
      exact absurd hw (by have := hKneg e he; omega)
  have hratK' : sK'.ratsnest = false := by
    cases hr : sK'.ratsnest
    · rfl
    · obtain ⟨e, he, hw⟩ := hInvK'.ratlatch hr
      rcases List.mem_cons.mp he with hm | hm
      · subst hm
        exact absurd hw (by show ¬ ((0 : Int) ≤ -1); omega)
      · exact absurd hw (by have := hKneg e hm; omega)
  have hdK : dTags coords.length sK.tags = numComponents knowns coords.length :=
    dTags_eq_numComponents fun i j hi hj =>
      (hInvK.conn i j hi hj).trans (hconnK i j)
  have hdK' : dTags coords.length sK'.tags = numComponents knowns coords.length :=
    dTags_eq_numComponents fun i j hi hj =>
      ((hInvK'.conn i j hi hj).trans (hconnxK i j)).trans (hconnK i j)
  have hexpK : sK'.expectedSize = sK.expectedSize := by
    have h1 := hInvK.count
    have h2 := hInvK'.count
    have l1 := dTags_le coords.length sK.tags
    have l2 := dTags_le coords.length sK'.tags
    rw [hdK, hszK] at h1
    rw [hdK', hszK'] at h2
    rw [hdK] at l1
    rw [hdK'] at l2
    omega
  have hSimK : Sim coords.length sK' sK :=
    ⟨hrelKK, hexpK, by rw [hszK, hszK'], by rw [hratK, hratK'],
      by rw [hmstK, hmstK'], hInvK'.wf, hInvK.wf⟩
  have hvalC : ∀ e ∈ C, e.p1.id < coords.length ∧ e.p2.id < coords.length := by
    intro e he
    refine hvalL e ?_
    rw [hsplit]
    exact List.mem_append_right _ he
  have hSimF := Sim_foldl C hvalC hSimK
  have hFb : (buildRun colinear tri (builderOf coords knowns)).1 =
      C.foldl gstep sK := by
    show (kloop (initKS (storedPoints coords)) L).1 = _
    rw [kloop_fst_eq_foldl]
    conv_lhs => rw [hsplit]
    rw [List.foldl_append]
  have hFe : (buildRun colinear tri (builderOf coords (knowns ++ [d]))).1 =
      C.foldl gstep sK' := by
    show (kloop (initKS (storedPoints coords))
      (procListOf (allEdges colinear tri (builderOf coords (knowns ++ [d]))))).1 = _
    rw [kloop_fst_eq_foldl, hproc]
    conv_lhs => rw [hsplitx]
    rw [List.foldl_append]
  show ((buildRun colinear tri (builderOf coords (knowns ++ [d]))).1.mst.map _) =
    ((buildRun colinear tri (builderOf coords knowns)).1.mst.map _)
  rw [hFe, hFb, hSimF.mst]

/-- Witness for C9: a duplicate of the known edge `(0, 1)` changes nothing
on the two-point builder. -/
theorem C9_duplicate_edges_witness :
    buildAirWires false (fun _ => [])
        (builderOf [(0, 0), (3, 4)] ([(0, 1)] ++ [(0, 1)])) =
      buildAirWires false (fun _ => []) (builderOf [(0, 0), (3, 4)] [(0, 1)]) :=
  C9_duplicate_edges false (fun _ => []) [(0, 0), (3, 4)] [(0, 1)] (0, 1)
    (by decide) (by decide) (by decide) (by decide) (by decide)
    (connOf_of_mem (by decide))

/-! ### Claim C4: candidate weights are doubles, not exact integers -/

/-- Counterexample to C4 as stated: the code stores coordinates in `qreal`
(IEEE-754 binary64) and computes `dx*dx + dy*dy` in doubles, so the weight
is rounded to 53 significant bits.  For the representable input points
`(0,0)` and `(94906267,0)` the exact squared distance `94906267²`
`= 9007199515875289` exceeds `2^53` and the computed weight is the rounded
`9007199515875288`: the weight is not the exact squared Euclidean distance,
and the candidate edge the builder makes carries the rounded value. -/
theorem C4_rounding_cex :
    fdist2 ⟨0, 0, 0, 0⟩ ⟨94906267, 0, 1, 0⟩ = 9007199515875288 ∧
    ((0 : Int) - 94906267) ^ 2 + ((0 : Int) - 0) ^ 2 = 9007199515875289 ∧
    fdist2 ⟨0, 0, 0, 0⟩ ⟨94906267, 0, 1, 0⟩ ≠
      ((0 : Int) - 94906267) ^ 2 + ((0 : Int) - 0) ^ 2 ∧
    withWeights (candidateEdges false (fun _ => [])
        (storedPoints [(0, 0), (94906267, 0)])) =
      [⟨⟨0, 0, 0, 0⟩, ⟨94906267, 0, 1, 0⟩, 9007199515875288⟩] :=
  ⟨by decide, by decide, by decide, by decide⟩

/-- C4 (amended): every weighted candidate edge carries the binary64 value
of `dx·dx + dy·dy` (each subtraction, product and sum rounded to nearest,
ties to even), and this equals the exact integer squared distance whenever
that exact value fits in the 53-bit significand (in particular for all
coordinates below ≈ 67 mm in nanometres); beyond `2^53` the weight may be
rounded. -/
theorem C4_weight_double (colinear : Bool) (tri : List V2 → List Edge)
    (ps : List V2) :
    (∀ e ∈ withWeights (candidateEdges colinear tri ps),
      e.weight = fdist2 e.p1 e.p2) ∧
    (∀ p q : V2, (p.x - q.x) ^ 2 + (p.y - q.y) ^ 2 < 2 ^ 53 →
      fdist2 p q = (p.x - q.x) ^ 2 + (p.y - q.y) ^ 2) := by
  constructor
  · intro e he
    obtain ⟨e0, _, hEq⟩ := List.mem_map.mp he
    subst hEq
    rfl
  · intro p q hfit
    exact fdist2_exact p q hfit

/-- Witness for C4 (amended): a 3-4-5 triangle's squared hypotenuse is
computed exactly. -/
theorem C4_weight_double_witness :
    fdist2 ⟨0, 0, 0, 0⟩ ⟨3, 4, 1, 0⟩ =
      ((0 : Int) - 3) ^ 2 + ((0 : Int) - 4) ^ 2 :=
  (C4_weight_double false (fun _ => []) []).2 ⟨0, 0, 0, 0⟩ ⟨3, 4, 1, 0⟩ (by decide)

end AirWires
